import Mathlib

set_option maxRecDepth 100000

/-!
Verification of the aidata document-processing operations
(`scripts/aidata_cli.py`) through a shallow embedding.

Python text is embedded as `List Char` (one code point per `Char`).
Python string primitives (`split('\n')`, `'\n'.join`, `strip`, `lower`,
`startswith`, substring membership, `str.replace`) are translated into
executable Lean functions below.  `hashlib.sha256(...).hexdigest()` is an
external library call; operations that use it are parameterized by an
abstract digest function `f : List Char → List Char` together with the
facts actually relied upon (a hex digest contains no newline).
-/

namespace AiData

/-- The six ASCII characters stripped by Python `str.strip()`/`rstrip()`
(the source never puts non-ASCII whitespace at section boundaries). -/
def isPySpace (c : Char) : Bool :=
  c = ' ' || c = '\t' || c = '\n' || c = '\r' || c = Char.ofNat 11 || c = Char.ofNat 12

/-- Python `str.lstrip()`. -/
def pyLStrip (s : List Char) : List Char := s.dropWhile isPySpace

/-- Python `str.rstrip()`. -/
def pyRStrip (s : List Char) : List Char := (s.reverse.dropWhile isPySpace).reverse

/-- Python `str.strip()`. -/
def pyStrip (s : List Char) : List Char := pyRStrip (pyLStrip s)

/-- Python `str.lower()` (ASCII case folding; the responses compared in the
source are ASCII). -/
def pyLower (s : List Char) : List Char := s.map Char.toLower

/-- Python `s.split('\n')`. -/
def splitNl : List Char → List (List Char)
  | [] => [[]]
  | c :: cs =>
    match splitNl cs with
    | [] => [[]]
    | l :: ls => if c = '\n' then [] :: l :: ls else (c :: l) :: ls

/-- Python `'\n'.join(lines)`. -/
def joinNl : List (List Char) → List Char
  | [] => []
  | [l] => l
  | l :: ls => l ++ '\n' :: joinNl ls

/-- First occurrence of `needle` in `s`: returns the text before the
occurrence and the text after it (the model of `re.search` on a literal,
and of Python substring membership). -/
def searchSub (needle : List Char) : List Char → Option (List Char × List Char)
  | [] => if needle.isPrefixOf [] then some ([], []) else none
  | c :: cs =>
    if needle.isPrefixOf (c :: cs) then some ([], (c :: cs).drop needle.length)
    else (searchSub needle cs).map (fun p => (c :: p.1, p.2))

/-- Python `needle in hay`. -/
def containsSub (hay needle : List Char) : Bool :=
  (searchSub needle hay).isSome

/-- Python `s.replace(old, new)`, fueled so that the recursion is
structural (every step consumes at least one character of `s`, so any
fuel of at least `s.length` computes the replacement; at fuel 0 the
remaining text is empty). -/
def pyReplaceF : Nat → List Char → List Char → List Char → List Char
  | 0, s, _, _ => s
  | fuel + 1, s, old, new =>
    if old ≠ [] ∧ old.isPrefixOf s then
      new ++ pyReplaceF fuel (s.drop old.length) old new
    else
      match s with
      | [] => []
      | c :: cs => c :: pyReplaceF fuel cs old new

/-- Python `s.replace(old, new)` for nonempty `old` (every occurrence,
scanning left to right; the source only ever replaces nonempty text). -/
def pyReplace (s old new : List Char) : List Char := pyReplaceF s.length s old new

theorem old_nil_of_prefix_nil {old : List Char} (h : old ≠ [] ∧ old.isPrefixOf ([] : List Char) = true) :
    False := by
  rcases old with _ | ⟨a, t⟩
  · exact h.1 rfl
  · simp [List.isPrefixOf] at h

theorem pyReplaceF_nil_any : ∀ (f : Nat) (old new : List Char), pyReplaceF f [] old new = [] := by
  intro f old new
  cases f with
  | zero => rfl
  | succ f' =>
    show pyReplaceF (f' + 1) [] old new = []
    unfold pyReplaceF
    rw [if_neg old_nil_of_prefix_nil]

theorem pyReplaceF_succ_match (fuel : Nat) {s old : List Char} (new : List Char)
    (h : old ≠ [] ∧ old.isPrefixOf s = true) :
    pyReplaceF (fuel + 1) s old new = new ++ pyReplaceF fuel (s.drop old.length) old new := by
  conv =>
    lhs
    unfold pyReplaceF
  rw [if_pos h]

theorem pyReplaceF_succ_nomatch (fuel : Nat) {c : Char} {cs old : List Char} (new : List Char)
    (h : ¬(old ≠ [] ∧ old.isPrefixOf (c :: cs) = true)) :
    pyReplaceF (fuel + 1) (c :: cs) old new = c :: pyReplaceF fuel cs old new := by
  conv =>
    lhs
    unfold pyReplaceF
  rw [if_neg h]

theorem pyReplaceF_congr : ∀ (f1 : Nat) (s : List Char) (f2 : Nat) (old new : List Char),
    s.length ≤ f1 → s.length ≤ f2 → pyReplaceF f1 s old new = pyReplaceF f2 s old new := by
  intro f1
  induction f1 with
  | zero =>
    intro s f2 old new h1 _
    have hs : s = [] := List.eq_nil_of_length_eq_zero (Nat.le_zero.mp h1)
    subst hs
    rw [pyReplaceF_nil_any, pyReplaceF_nil_any]
  | succ f1' ih =>
    intro s f2 old new h1 h2
    cases s with
    | nil => rw [pyReplaceF_nil_any, pyReplaceF_nil_any]
    | cons c cs =>
      cases f2 with
      | zero => exact absurd h2 (by simp)
      | succ f2' =>
        by_cases h : old ≠ [] ∧ old.isPrefixOf (c :: cs) = true
        · rw [pyReplaceF_succ_match f1' new h, pyReplaceF_succ_match f2' new h]
          have hpos : 0 < old.length := List.length_pos.mpr h.1
          have hlen : old.length ≤ (c :: cs).length :=
            (List.isPrefixOf_iff_prefix.mp h.2).length_le
          have hd1 : ((c :: cs).drop old.length).length ≤ f1' := by
            simp only [List.length_drop]
            simp only [List.length_cons] at h1 hlen ⊢
            omega
          have hd2 : ((c :: cs).drop old.length).length ≤ f2' := by
            simp only [List.length_drop]
            simp only [List.length_cons] at h2 hlen ⊢
            omega
          rw [ih _ f2' old new hd1 hd2]
        · rw [pyReplaceF_succ_nomatch f1' new h, pyReplaceF_succ_nomatch f2' new h]
          have hc1 : cs.length ≤ f1' := by simp only [List.length_cons] at h1; omega
          have hc2 : cs.length ≤ f2' := by simp only [List.length_cons] at h2; omega
          rw [ih _ f2' old new hc1 hc2]

theorem pyReplace_match {s old : List Char} (new : List Char)
    (h1 : old ≠ []) (h2 : old.isPrefixOf s = true) :
    pyReplace s old new = new ++ pyReplace (s.drop old.length) old new := by
  have hlen : old.length ≤ s.length := (List.isPrefixOf_iff_prefix.mp h2).length_le
  have hpos : 0 < old.length := List.length_pos.mpr h1
  cases s with
  | nil => exact absurd ⟨h1, h2⟩ old_nil_of_prefix_nil
  | cons c cs =>
    show pyReplaceF (cs.length + 1) (c :: cs) old new =
      new ++ pyReplace ((c :: cs).drop old.length) old new
    rw [pyReplaceF_succ_match cs.length new ⟨h1, h2⟩]
    refine congrArg (fun t => new ++ t) ?_
    show pyReplaceF cs.length ((c :: cs).drop old.length) old new =
      pyReplaceF ((c :: cs).drop old.length).length ((c :: cs).drop old.length) old new
    refine pyReplaceF_congr cs.length _ _ old new ?_ (Nat.le_refl _)
    simp only [List.length_drop]
    simp only [List.length_cons] at hlen ⊢
    omega

theorem pyReplace_nil (old new : List Char) : pyReplace [] old new = [] := rfl

theorem pyReplace_nomatch {c : Char} {cs old : List Char} (new : List Char)
    (h : ¬(old ≠ [] ∧ old.isPrefixOf (c :: cs) = true)) :
    pyReplace (c :: cs) old new = c :: pyReplace cs old new := by
  show pyReplaceF (cs.length + 1) (c :: cs) old new = c :: pyReplace cs old new
  rw [pyReplaceF_succ_nomatch cs.length new h]
  rfl

/-! ### Lemmas about the text primitives -/

theorem splitNl_ne_nil (s : List Char) : splitNl s ≠ [] := by
  cases s with
  | nil => simp [splitNl]
  | cons c cs =>
    simp only [splitNl]
    cases splitNl cs with
    | nil => simp
    | cons l ls => by_cases h : c = '\n' <;> simp [h]

theorem joinNl_splitNl (s : List Char) : joinNl (splitNl s) = s := by
  induction s with
  | nil => simp [splitNl, joinNl]
  | cons c cs ih =>
    simp only [splitNl]
    rcases h : splitNl cs with _ | ⟨l, ls⟩
    · exact absurd h (splitNl_ne_nil cs)
    · rw [h] at ih
      by_cases hc : c = '\n'
      · subst hc
        simp only [if_pos rfl, joinNl]
        cases ls <;> simp_all [joinNl]
      · simp only [if_neg hc]
        cases ls <;> simp_all [joinNl]

theorem splitNl_newline (cs : List Char) : splitNl ('\n' :: cs) = [] :: splitNl cs := by
  simp only [splitNl]
  rcases h : splitNl cs with _ | ⟨l, ls⟩
  · exact absurd h (splitNl_ne_nil cs)
  · simp

theorem splitNl_other {c : Char} (hc : c ≠ '\n') (cs : List Char) :
    splitNl (c :: cs) = (c :: (splitNl cs).headI) :: (splitNl cs).tail := by
  simp only [splitNl]
  rcases h : splitNl cs with _ | ⟨l, ls⟩
  · exact absurd h (splitNl_ne_nil cs)
  · simp [hc]

theorem splitNl_no_newline : ∀ (s : List Char), ∀ p ∈ splitNl s, '\n' ∉ p := by
  intro s
  induction s with
  | nil =>
    intro p hp
    simp only [splitNl, List.mem_singleton] at hp
    subst hp; simp
  | cons c cs ih =>
    intro p hp
    by_cases hc : c = '\n'
    · subst hc
      rw [splitNl_newline] at hp
      rcases List.mem_cons.mp hp with rfl | hp
      · simp
      · exact ih p hp
    · rw [splitNl_other hc] at hp
      rcases hsp : splitNl cs with _ | ⟨l, ls⟩
      · exact absurd hsp (splitNl_ne_nil cs)
      · rw [hsp] at hp
        simp only [List.headI, List.tail_cons] at hp
        rcases List.mem_cons.mp hp with rfl | hp
        · intro hmem
          rcases List.mem_cons.mp hmem with hmem | hmem
          · exact hc hmem.symm
          · exact ih l (hsp ▸ List.mem_cons_self l ls) hmem
        · exact ih p (hsp ▸ List.mem_cons_of_mem l hp)

theorem splitNl_append_no_newline {p : List Char} (hp : '\n' ∉ p) (s : List Char) :
    splitNl (p ++ '\n' :: s) = p :: splitNl s := by
  induction p with
  | nil => simp [splitNl_newline]
  | cons c cs ih =>
    have hc : c ≠ '\n' := by intro h; exact hp (h ▸ List.mem_cons_self c cs)
    have hcs : '\n' ∉ cs := fun h => hp (List.mem_cons_of_mem c h)
    rw [List.cons_append, splitNl_other hc, ih hcs]
    simp [List.headI]

theorem splitNl_eq_singleton {p : List Char} (hp : '\n' ∉ p) : splitNl p = [p] := by
  induction p with
  | nil => simp [splitNl]
  | cons c cs ih =>
    have hc : c ≠ '\n' := by intro h; exact hp (h ▸ List.mem_cons_self c cs)
    have hcs : '\n' ∉ cs := fun h => hp (List.mem_cons_of_mem c h)
    rw [splitNl_other hc, ih hcs]
    simp [List.headI]

theorem splitNl_joinNl {ls : List (List Char)} (hne : ls ≠ [])
    (hnl : ∀ p ∈ ls, '\n' ∉ p) : splitNl (joinNl ls) = ls := by
  induction ls with
  | nil => exact absurd rfl hne
  | cons l ls ih =>
    cases ls with
    | nil => simp [joinNl, splitNl_eq_singleton (hnl l (List.mem_cons_self l []))]
    | cons m ms =>
      have h1 : joinNl (l :: m :: ms) = l ++ '\n' :: joinNl (m :: ms) := rfl
      rw [h1, splitNl_append_no_newline (hnl l (List.mem_cons_self _ _))]
      rw [ih (by simp) (fun p hp => hnl p (List.mem_cons_of_mem l hp))]

theorem joinNl_ne_nil_of_mem_ne {ls : List (List Char)} {x : List Char}
    (hx : x ∈ ls) (hne : x ≠ []) : joinNl ls ≠ [] := by
  induction ls with
  | nil => simp at hx
  | cons l t ih =>
    cases t with
    | nil =>
      simp only [List.mem_singleton] at hx
      subst hx; simpa [joinNl] using hne
    | cons m ms =>
      have h1 : joinNl (l :: m :: ms) = l ++ '\n' :: joinNl (m :: ms) := rfl
      rw [h1]
      intro hcontra
      rcases List.append_eq_nil.mp hcontra with ⟨_, h2⟩
      exact List.cons_ne_nil _ _ h2

/-! ### Shape matching for the fixed-width regex pieces

`\d{4}-\d{2}-\d{2} \d{2}:\d{2}:\d{2}` and friends are fixed-width
patterns; `matchShape ps s` checks that the first `ps.length` characters
of `s` satisfy the per-position predicates (Python `\d` on the ASCII
timestamps the format prescribes). -/

def matchShape : List (Char → Bool) → List Char → Bool
  | [], _ => true
  | _ :: _, [] => false
  | p :: ps, c :: cs => p c && matchShape ps cs

def isDigitCh (c : Char) : Bool := c.isDigit

/-- The 19-character shape `\d{4}-\d{2}-\d{2} \d{2}:\d{2}:\d{2}`. -/
def tsShape : List (Char → Bool) :=
  [isDigitCh, isDigitCh, isDigitCh, isDigitCh, (· = '-'), isDigitCh, isDigitCh, (· = '-'),
   isDigitCh, isDigitCh, (· = ' '), isDigitCh, isDigitCh, (· = ':'), isDigitCh, isDigitCh,
   (· = ':'), isDigitCh, isDigitCh]

/-! ### validate_syntax (aidata_cli.py lines 33-91) -/

/-- ASCII apostrophe, used inside some source message strings. -/
def apos : Char := Char.ofNat 39

def mandatorySections : List (List Char) :=
  ["FILE METADATA".data, "DOMAIN CONTEXT".data, "KNOWLEDGE REPRESENTATION".data,
   "VALIDATION FRAMEWORK".data, "APPLICATION CONTEXT".data, "EVOLUTION TRACKING".data,
   "AUTOMATED LEARNINGS".data]

/-- The accumulation loop of lines 49-52: every mandatory section whose
marker `## NAME` does not occur in the content. -/
def missingSections (content : List Char) : List (List Char) :=
  mandatorySections.filter (fun s => ! containsSub content ("## ".data ++ s))

def readErrMsg : List Char := "Could not read file content.".data

def missingMsg (missing : List (List Char)) : List Char :=
  "Missing mandatory sections: ".data ++ List.intercalate ", ".data missing

def headerMsg : List Char :=
  "File must start with ".data ++ apos :: "# AI LEARNING FILE:".data ++ [apos]

def createdMsg : List Char :=
  "Missing ".data ++ apos :: "CREATED".data ++ apos :: " section".data

def badTsMsg : List Char := "Invalid timestamp format in CREATED section".data

def passMsg : List Char := "Syntax validation passed.".data

/-- `re.search(r"## CREATED\n(\d{4}-\d{2}-\d{2} \d{2}:\d{2}:\d{2})", content)`:
leftmost position where the literal then the timestamp shape match;
returns the captured group. -/
def searchCreated : List Char → Option (List Char)
  | [] => none
  | c :: cs =>
    if "## CREATED\n".data.isPrefixOf (c :: cs) && matchShape tsShape ((c :: cs).drop 11) then
      some (((c :: cs).drop 11).take 19)
    else searchCreated cs

def digitsToNat (ds : List Char) : Nat := ds.foldl (fun n c => 10 * n + (c.toNat - 48)) 0

def isLeapYear (y : Nat) : Bool := (y % 4 = 0 && ! (y % 100 = 0)) || y % 400 = 0

def daysInMonth (y m : Nat) : Nat :=
  if m = 2 then (if isLeapYear y then 29 else 28)
  else if m = 4 || m = 6 || m = 9 || m = 11 then 30 else 31

/-- `datetime.strptime(ts, "%Y-%m-%d %H:%M:%S")` succeeds on a
shape-matching 19-character string iff the calendar fields are in range
(datetime requires year ≥ 1; four digits bound it by 9999). -/
def validDatetime (ts : List Char) : Bool :=
  let y := digitsToNat (ts.take 4)
  let mo := digitsToNat ((ts.drop 5).take 2)
  let d := digitsToNat ((ts.drop 8).take 2)
  let h := digitsToNat ((ts.drop 11).take 2)
  let mi := digitsToNat ((ts.drop 14).take 2)
  let se := digitsToNat ((ts.drop 17).take 2)
  decide (1 ≤ y) && decide (1 ≤ mo) && decide (mo ≤ 12) && decide (1 ≤ d) &&
    decide (d ≤ daysInMonth y mo) && decide (h ≤ 23) && decide (mi ≤ 59) && decide (se ≤ 59)

/-! The metadata-section matcher of lines 74 and 288,
`re.search(r'## FILE METADATA\n([\\s\\S]*?)(?=\\n## |\\Z)', content)`.
Because the raw string doubles the backslashes, the character class
`[\\s\\S]` contains exactly the three literal characters backslash, `s`,
`S`, and the lookahead alternatives are the literal texts
backslash+`n## ` and backslash+`Z`.  The group is matched lazily. -/

def fmBrokenLit : List Char := "## FILE METADATA\n".data

def bsClassCh (c : Char) : Bool := c = '\\' || c = 's' || c = 'S'

def brokenLook (s : List Char) : Bool :=
  "\\n## ".data.isPrefixOf s || "\\Z".data.isPrefixOf s

/-- Lazy `([\\s\\S]*?)` followed by the broken lookahead: shortest prefix
of class characters after which the lookahead holds. -/
def lazyClassScan : List Char → Option (List Char)
  | [] => if brokenLook [] then some [] else none
  | c :: cs =>
    if brokenLook (c :: cs) then some []
    else if bsClassCh c then (lazyClassScan cs).map (c :: ·) else none

/-- `re.search` of the broken metadata pattern: leftmost start position
where the whole pattern matches; returns group 1. -/
def searchMetaBroken : List Char → Option (List Char)
  | [] => none
  | c :: cs =>
    if fmBrokenLit.isPrefixOf (c :: cs) then
      match lazyClassScan ((c :: cs).drop 17) with
      | some g => some g
      | none => searchMetaBroken cs
    else searchMetaBroken cs

def requiredMetadataFields : List (List Char) :=
  ["Schema Version".data, "Confidence Level".data, "Classification".data]

/-- Lines 73-89: the required-metadata-fields step (reached only when all
earlier steps passed). -/
def requiredFieldsCheck (content : List Char) : Bool × List Char :=
  match searchMetaBroken content with
  | some g =>
    let missing := requiredMetadataFields.filter
      (fun f => ! containsSub g ("- **".data ++ f ++ "**:".data))
    if missing ≠ [] then
      (false, "Missing required metadata fields: ".data ++ List.intercalate ", ".data missing)
    else (true, passMsg)
  | none => (true, passMsg)

/-- `AIDataProcessor.validate_syntax` (lines 33-91).  The file content is
taken as given; a `None`/empty content hits the falsy guard of line 35. -/
def validate_syntax (content : List Char) : Bool × List Char :=
  if content = [] then (false, readErrMsg)
  else if missingSections content ≠ [] then
    (false, missingMsg (missingSections content))
  else if ! ("# AI LEARNING FILE:".data.isPrefixOf content) then (false, headerMsg)
  else if ! containsSub content "## CREATED".data then (false, createdMsg)
  else
    match searchCreated content with
    | some ts =>
      if ! validDatetime ts then (false, badTsMsg) else requiredFieldsCheck content
    | none => requiredFieldsCheck content

/-! ### generate_hash (aidata_cli.py lines 93-139)

`hashlib.sha256(...).hexdigest()` is abstracted as a parameter
`f : List Char → List Char`; the theorems assume only what is true of a
hex digest (no newline characters). -/

def hashLineMark : List Char := "- **Integrity Hash**: SHA256-".data

def isHashLine (l : List Char) : Bool := hashLineMark.isPrefixOf l

/-- Index remembered by the loop of lines 104-108: the last line starting
with the hash marker. -/
def lastHashIdx : List (List Char) → Option Nat
  | [] => none
  | l :: ls =>
    match lastHashIdx ls with
    | some j => some (j + 1)
    | none => if isHashLine l then some 0 else none

def fmMarkerLine : List Char := "## FILE METADATA".data

/-- Lines 124-129: advance past the FILE METADATA body and insert the hash
line before the next `## ` line (or at end of file). -/
def fmScanInsert (hline : List Char) : List (List Char) → List (List Char)
  | [] => [hline]
  | l :: ls => if "## ".data.isPrefixOf l then hline :: l :: ls else l :: fmScanInsert hline ls

/-- Lines 122-130: find the line equal to `## FILE METADATA` and insert
there; no marker means no insertion. -/
def fmInsert (hline : List Char) : List (List Char) → List (List Char)
  | [] => []
  | l :: ls => if l = fmMarkerLine then l :: fmScanInsert hline ls else l :: fmInsert hline ls

/-- `AIDataProcessor.generate_hash`, returning the reported hash and the
text written back (`none` models the falsy-content early return). -/
def generate_hash (f : List Char → List Char) (content : List Char) :
    Option (List Char × List Char) :=
  if content = [] then none
  else
    let lines := splitNl content
    let filtered := lines.filter (fun l => ! isHashLine l)
    let h := f (joinNl filtered)
    let hline := hashLineMark ++ h
    let newLines :=
      match lastHashIdx lines with
      | some i => lines.set i hline
      | none => fmInsert hline lines
    some (h, joinNl newLines)

/-! ### deduplicate_learnings (aidata_cli.py lines 141-213) -/

def alMarker : List Char := "## AUTOMATED LEARNINGS\n".data

/-- First 22 characters of the entry separator
`\n### Learning Entry - \d{4}-\d{2}-\d{2} \d{2}:\d{2}:\d{2}\n`. -/
def leSepLit : List Char := "\n### Learning Entry - ".data

/-- Full 42-character separator match at the head of `s`. -/
def matchLeSep (s : List Char) : Bool :=
  leSepLit.isPrefixOf s && matchShape tsShape (s.drop 22) &&
    (match s.drop 41 with
     | '\n' :: _ => true
     | _ => false)

theorem matchLeSep_length {s : List Char} (h : matchLeSep s = true) : 42 ≤ s.length := by
  unfold matchLeSep at h
  simp only [Bool.and_eq_true] at h
  rcases h with ⟨_, htail⟩
  rcases hd : s.drop 41 with _ | ⟨c, rest⟩
  · rw [hd] at htail; simp at htail
  · have : s.drop 41 ≠ [] := by rw [hd]; simp
    have hlen : 41 < s.length := by
      by_contra hle
      push_neg at hle
      exact this (List.drop_eq_nil_of_le hle)
    omega

/-- `re.split(r'(\n### Learning Entry - ...\n)', section_content)` with the
capturing group: alternating `[part, sep, part, sep, ..., part]`,
scanning left to right for non-overlapping matches.  `acc` holds the
current part reversed.  Fueled so that the recursion is structural: every
step consumes at least one character (a separator match consumes 42), so
any fuel of at least `s.length` computes the split. -/
def splitLEAuxF : Nat → List Char → List Char → List (List Char)
  | 0, acc, _ => [acc.reverse]
  | fuel + 1, acc, s =>
    if matchLeSep s then
      acc.reverse :: s.take 42 :: splitLEAuxF fuel [] (s.drop 42)
    else
      match s with
      | [] => [acc.reverse]
      | c :: cs => splitLEAuxF fuel (c :: acc) cs

def splitLEAux (acc s : List Char) : List (List Char) := splitLEAuxF s.length acc s

def splitLE (s : List Char) : List (List Char) := splitLEAux [] s

theorem splitLEAuxF_nil_any : ∀ (f : Nat) (acc : List Char),
    splitLEAuxF f acc [] = [acc.reverse] := by
  intro f acc
  cases f with
  | zero => rfl
  | succ f' =>
    show splitLEAuxF (f' + 1) acc [] = [acc.reverse]
    unfold splitLEAuxF
    rw [if_neg (by decide : ¬ matchLeSep [] = true)]

theorem splitLEAuxF_succ_match (fuel : Nat) {s : List Char} (acc : List Char)
    (h : matchLeSep s = true) :
    splitLEAuxF (fuel + 1) acc s =
      acc.reverse :: s.take 42 :: splitLEAuxF fuel [] (s.drop 42) := by
  conv =>
    lhs
    unfold splitLEAuxF
  rw [if_pos h]

theorem splitLEAuxF_succ_nomatch (fuel : Nat) {c : Char} {cs : List Char} (acc : List Char)
    (h : ¬ matchLeSep (c :: cs) = true) :
    splitLEAuxF (fuel + 1) acc (c :: cs) = splitLEAuxF fuel (c :: acc) cs := by
  conv =>
    lhs
    unfold splitLEAuxF
  rw [if_neg h]

theorem splitLEAuxF_congr : ∀ (f1 : Nat) (s : List Char) (f2 : Nat) (acc : List Char),
    s.length ≤ f1 → s.length ≤ f2 → splitLEAuxF f1 acc s = splitLEAuxF f2 acc s := by
  intro f1
  induction f1 with
  | zero =>
    intro s f2 acc h1 _
    have hs : s = [] := List.eq_nil_of_length_eq_zero (Nat.le_zero.mp h1)
    subst hs
    rw [splitLEAuxF_nil_any, splitLEAuxF_nil_any]
  | succ f1' ih =>
    intro s f2 acc h1 h2
    cases s with
    | nil => rw [splitLEAuxF_nil_any, splitLEAuxF_nil_any]
    | cons c cs =>
      cases f2 with
      | zero => exact absurd h2 (by simp)
      | succ f2' =>
        by_cases h : matchLeSep (c :: cs) = true
        · rw [splitLEAuxF_succ_match f1' acc h, splitLEAuxF_succ_match f2' acc h]
          have h42 := matchLeSep_length h
          have hd1 : ((c :: cs).drop 42).length ≤ f1' := by
            simp only [List.length_drop]
            simp only [List.length_cons] at h1 h42 ⊢
            omega
          have hd2 : ((c :: cs).drop 42).length ≤ f2' := by
            simp only [List.length_drop]
            simp only [List.length_cons] at h2 h42 ⊢
            omega
          rw [ih _ f2' [] hd1 hd2]
        · rw [splitLEAuxF_succ_nomatch f1' acc h, splitLEAuxF_succ_nomatch f2' acc h]
          have hc1 : cs.length ≤ f1' := by simp only [List.length_cons] at h1; omega
          have hc2 : cs.length ≤ f2' := by simp only [List.length_cons] at h2; omega
          rw [ih _ f2' (c :: acc) hc1 hc2]

theorem splitLEAux_match {s : List Char} (acc : List Char) (h : matchLeSep s = true) :
    splitLEAux acc s = acc.reverse :: s.take 42 :: splitLEAux [] (s.drop 42) := by
  have h42 := matchLeSep_length h
  cases s with
  | nil => exact absurd h (by decide)
  | cons c cs =>
    show splitLEAuxF (cs.length + 1) (acc) (c :: cs) =
      acc.reverse :: (c :: cs).take 42 :: splitLEAux [] ((c :: cs).drop 42)
    rw [splitLEAuxF_succ_match cs.length acc h]
    refine congrArg (fun t => acc.reverse :: (c :: cs).take 42 :: t) ?_
    show splitLEAuxF cs.length [] ((c :: cs).drop 42) =
      splitLEAuxF ((c :: cs).drop 42).length [] ((c :: cs).drop 42)
    refine splitLEAuxF_congr cs.length _ _ [] ?_ (Nat.le_refl _)
    simp only [List.length_drop]
    simp only [List.length_cons] at h42 ⊢
    omega

theorem splitLEAux_nil (acc : List Char) : splitLEAux acc [] = [acc.reverse] := rfl

theorem splitLEAux_nomatch {c : Char} {cs : List Char} (acc : List Char)
    (h : ¬ matchLeSep (c :: cs) = true) :
    splitLEAux acc (c :: cs) = splitLEAux (c :: acc) cs := by
  show splitLEAuxF (cs.length + 1) acc (c :: cs) = splitLEAuxF cs.length (c :: acc) cs
  rw [splitLEAuxF_succ_nomatch cs.length acc h]

/-- `re.search` of the timestamp pattern inside an entry header (lines
176-177); an absent match yields the empty timestamp. -/
def findTs : List Char → List Char
  | [] => []
  | c :: cs => if matchShape tsShape (c :: cs) then (c :: cs).take 19 else findTs cs

/-- Lines 180-181: first five lines of the stripped entry body. -/
def entrySummary (b : List Char) : List Char := joinNl ((splitNl (pyStrip b)).take 5)

/-- Line 183, `f"{timestamp}|{content_summary}"`.  The source stores
`sha256(identifier)` in its seen-set; equality of SHA-256 digests is
modeled as equality of the identifiers themselves. -/
def entryIdent (h b : List Char) : List Char := findTs h ++ '|' :: entrySummary b

/-- Lines 169-172: the (header, content) pairs at indices (1,2), (3,4), …
of the split result; a trailing header with no following part is skipped. -/
def pairsAux : List (List Char) → List (List Char × List Char)
  | h :: b :: rest => (h, b) :: pairsAux rest
  | _ => []

def pairList : List (List Char) → List (List Char × List Char)
  | [] => []
  | _ :: rest => pairsAux rest

/-- Lines 168-191: keep the first entry per identifier, count the rest. -/
def processPairs (seen : List (List Char)) :
    List (List Char × List Char) → List (List Char × List Char) × Nat
  | [] => ([], 0)
  | (h, b) :: rest =>
    let ident := entryIdent h b
    if ident ∈ seen then
      let r := processPairs seen rest
      (r.1, r.2 + 1)
    else
      let r := processPairs (ident :: seen) rest
      ((h, b) :: r.1, r.2)

def flattenPairs : List (List Char × List Char) → List (List Char)
  | [] => []
  | (h, b) :: rest => h :: b :: flattenPairs rest

/-- `''.join(parts)`. -/
def joinAll : List (List Char) → List Char
  | [] => []
  | l :: ls => l ++ joinAll ls

inductive DedupResult
  | readError : DedupResult
  | noSection : DedupResult
  | cancelled : DedupResult
  | written : Nat → List Char → DedupResult
deriving DecidableEq

/-- Lines 164-165: the preamble part is kept only when its strip is
truthy (nonempty). -/
def e0keepOf : List (List Char) → List (List Char)
  | [] => []
  | e0 :: _ => if pyStrip e0 = [] then [] else [e0]

/-- `AIDataProcessor.deduplicate_learnings`.  `response` is the text the
interactive prompt would read; it is consulted exactly when duplicates
exist and `autoConfirm` is false.  `cancelled` is the no-write abort. -/
def deduplicate_learnings (content : List Char) (autoConfirm : Bool)
    (response : List Char) : DedupResult :=
  if content = [] then .readError
  else
    match searchSub alMarker content with
    | none => .noSection
    | some pr =>
      let g2 := pr.2
      let entries := splitLE g2
      let pr2 := processPairs [] (pairList entries)
      if pr2.2 > 0 ∧ autoConfirm = false ∧ pyLower response ≠ ['y'] then .cancelled
      else
        let reconstructed := e0keepOf entries ++ flattenPairs pr2.1
        let newSection := pyStrip (joinAll reconstructed)
        let newContent := pyReplace content (alMarker ++ g2) (alMarker ++ newSection)
        .written pr2.2 newContent

/-! ### add_checkpoint (aidata_cli.py lines 215-268)

`datetime.now().strftime(...)` is an external input and becomes the
`timestamp` parameter. -/

def etMarker : List Char := "## EVOLUTION TRACKING".data

def chMarker : List Char := "### Checkpoint History".data

def emptyBoldMarker : List Char := "- ****:".data

/-- The state machine of lines 231-244, with `Option` for the
`insert`+`break`: `some` is the mutated tail, the `Bool` is
`checkpoint_section_found`. -/
def cpFirstLoop (entry : List Char) (inET inCP found : Bool) :
    List (List Char) → Option (List (List Char)) × Bool
  | [] => (none, found)
  | l :: ls =>
    if containsSub l etMarker then
      let r := cpFirstLoop entry true inCP found ls
      (r.1.map (l :: ·), r.2)
    else if inET && containsSub l chMarker then
      let r := cpFirstLoop entry inET true true ls
      (r.1.map (l :: ·), r.2)
    else if inET && inCP && "## ".data.isPrefixOf l && ! containsSub l chMarker then
      (some (entry :: l :: ls), found)
    else if inET && inCP && containsSub l emptyBoldMarker then
      (some (l :: entry :: ls), found)
    else
      let r := cpFirstLoop entry inET inCP found ls
      (r.1.map (l :: ·), r.2)

/-- The `while` scan of lines 251-253 past the EVOLUTION TRACKING marker,
followed by the insertion of lines 254-260.  `none` is the uncaught
`IndexError` from evaluating `lines[j]` at `j = len(lines)`: the loop
condition `(j < len ∧ ¬ startswith) ∨ marker ∈ lines[j]` stops only at a
`## ` line not containing the marker and otherwise runs off the end. -/
def cpCreateScan (newls : List (List Char)) : List (List Char) → Option (List (List Char))
  | [] => none
  | l :: ls =>
    if "## ".data.isPrefixOf l && ! containsSub l etMarker then some (newls ++ l :: ls)
    else (cpCreateScan newls ls).map (l :: ·)

/-- Lines 248-261: locate the first EVOLUTION TRACKING line and create the
Checkpoint History subsection after its section; no marker leaves the
lines unchanged. -/
def cpCreate (newls : List (List Char)) : List (List Char) → Option (List (List Char))
  | [] => some []
  | l :: ls =>
    if containsSub l etMarker then (cpCreateScan newls ls).map (l :: ·)
    else (cpCreate newls ls).map (l :: ·)

inductive CpResult
  | readError : CpResult
  | indexError : CpResult
  | ok : List Char → CpResult
deriving DecidableEq

/-- Lines 220-221: `f"- **{timestamp}**: {description}\n"`. -/
def mkCpEntry (timestamp description : List Char) : List Char :=
  "- **".data ++ timestamp ++ "**: ".data ++ description ++ ['\n']

/-- `AIDataProcessor.add_checkpoint`; `ok` carries the text written back,
`indexError` the abnormal termination of the creation scan. -/
def add_checkpoint (content timestamp description : List Char) : CpResult :=
  if content = [] then .readError
  else
    let entry := mkCpEntry timestamp description
    let lines := splitNl content
    let fl := cpFirstLoop entry false false false lines
    let lines1 := match fl.1 with | some r => r | none => lines
    if fl.2 then .ok (joinNl lines1)
    else
      match cpCreate [('\n' :: chMarker), pyRStrip entry] lines1 with
      | some r => .ok (joinNl r)
      | none => .indexError

/-! ### to_json, metadata portion (aidata_cli.py lines 287-301) -/

/-- `re.match(r'- \*\*([^:]+)\*\*: (.*)', line)` on the text after the
4-character literal `- **`: the greedy `[^:]+` with backtracking matches
exactly when the text before the first colon ends in `**` with a nonempty
key before it and the colon is followed by a space. -/
def parseKV (rest : List Char) : Option (List Char × List Char) :=
  let key' := rest.takeWhile (fun c => ! (c = ':'))
  match rest.drop key'.length with
  | ':' :: ' ' :: value =>
    if 3 ≤ key'.length ∧ key'.drop (key'.length - 2) = ['*', '*'] then
      some (key'.take (key'.length - 2), value)
    else none
  | _ => none

/-- Python dict assignment `d[key] = value`, preserving first-insertion
order on overwrite. -/
def dictInsert : List (List Char × List Char) → List Char → List Char →
    List (List Char × List Char)
  | [], k, v => [(k, v)]
  | (k', v') :: rest, k, v =>
    if k' = k then (k, v) :: rest else (k', v') :: dictInsert rest k v

/-- Lines 291-301: one pass over the matched metadata body. -/
def toJsonMetaLine (m : List (List Char × List Char)) (line : List Char) :
    List (List Char × List Char) :=
  if "- **".data.isPrefixOf line then
    match parseKV (line.drop 4) with
    | some kv => dictInsert m kv.1 kv.2
    | none => m
  else m

/-- The `metadata` mapping built by `AIDataProcessor.to_json`
(lines 287-301), as an ordered key-value list. -/
def to_json_metadata (content : List Char) : List (List Char × List Char) :=
  match searchMetaBroken content with
  | none => []
  | some g => (splitNl g).foldl toJsonMetaLine []

/-! ## Claim C1 -/

/-- **C1, counterexample.**  The empty document is missing every one of
the 7 mandatory sections, yet `validate_syntax` returns the
unreadable-content message (the empty string is falsy at line 35), which
names none of the missing sections — the failure message does not report
the missing subset. -/
theorem c1_counterexample :
    missingSections [] = mandatorySections ∧
    validate_syntax [] = (false, readErrMsg) ∧
    readErrMsg ≠ missingMsg mandatorySections := by
  refine ⟨by decide, by decide, by decide⟩

/-- **C1, amended.**  For every *nonempty* document missing at least one
mandatory section, validation fails and its message lists exactly the
missing subset: the reported list contains a section name iff it is
mandatory and its `## NAME` marker is absent from the content (all
seven are checked and accumulated before any other validation step). -/
theorem c1_amended (content : List Char) (hne : content ≠ [])
    (hmiss : missingSections content ≠ []) :
    validate_syntax content = (false, missingMsg (missingSections content)) ∧
    ∀ s, s ∈ missingSections content ↔
      (s ∈ mandatorySections ∧ containsSub content ("## ".data ++ s) = false) := by
  constructor
  · unfold validate_syntax
    rw [if_neg hne, if_pos hmiss]
  · intro s
    simp [missingSections, List.mem_filter]

/-- Witness for `c1_amended` at a concrete document missing all sections
but `FILE METADATA`. -/
theorem c1_amended_witness :
    validate_syntax "# x\n## FILE METADATA\ny".data =
      (false, missingMsg (missingSections "# x\n## FILE METADATA\ny".data)) ∧
    ∀ s, s ∈ missingSections "# x\n## FILE METADATA\ny".data ↔
      (s ∈ mandatorySections ∧
        containsSub "# x\n## FILE METADATA\ny".data ("## ".data ++ s) = false) :=
  c1_amended "# x\n## FILE METADATA\ny".data (by decide) (by decide)

/-! ## Claim C2 -/

theorem lazyClassScan_eq_none_of_no_backslash {t : List Char} (h : '\\' ∉ t) :
    lazyClassScan t = none := by
  induction t with
  | nil => simp [lazyClassScan, brokenLook]
  | cons c cs ih =>
    have hc : c ≠ '\\' := fun hh => h (hh ▸ List.mem_cons_self c cs)
    have hcs : '\\' ∉ cs := fun hh => h (List.mem_cons_of_mem c hh)
    have hlook : brokenLook (c :: cs) = false := by
      unfold brokenLook
      have h1 : "\\n## ".data.isPrefixOf (c :: cs) = false := by
        cases hp : "\\n## ".data.isPrefixOf (c :: cs)
        · rfl
        · exfalso
          rcases List.isPrefixOf_iff_prefix.mp hp with ⟨t', ht'⟩
          have : c = '\\' := by
            have := congrArg (List.head? ·) ht'
            simpa using this.symm
          exact hc this
      have h2 : "\\Z".data.isPrefixOf (c :: cs) = false := by
        cases hp : "\\Z".data.isPrefixOf (c :: cs)
        · rfl
        · exfalso
          rcases List.isPrefixOf_iff_prefix.mp hp with ⟨t', ht'⟩
          have : c = '\\' := by
            have := congrArg (List.head? ·) ht'
            simpa using this.symm
          exact hc this
      rw [h1, h2]; rfl
    unfold lazyClassScan
    rw [hlook]
    simp only [Bool.false_eq_true, if_false]
    by_cases hcl : bsClassCh c = true
    · rw [if_pos hcl, ih hcs]; rfl
    · rw [if_neg hcl]

theorem searchMetaBroken_eq_none_of_no_backslash :
    ∀ {s : List Char}, '\\' ∉ s → searchMetaBroken s = none := by
  intro s
  induction s with
  | nil => intro _; rfl
  | cons c cs ih =>
    intro h
    have hcs : '\\' ∉ cs := fun hh => h (List.mem_cons_of_mem c hh)
    unfold searchMetaBroken
    by_cases hp : fmBrokenLit.isPrefixOf (c :: cs) = true
    · rw [if_pos hp]
      have hdrop : '\\' ∉ (c :: cs).drop 17 := fun hh => h (List.mem_of_mem_drop hh)
      rw [lazyClassScan_eq_none_of_no_backslash hdrop]
      exact ih hcs
    · rw [if_neg hp]
      exact ih hcs

/-- For any document containing no literal backslash character the
broken metadata matcher finds nothing, so the `metadata` mapping of
`to_json` is empty. -/
theorem to_json_metadata_empty_of_no_backslash {s : List Char} (h : '\\' ∉ s) :
    to_json_metadata s = [] := by
  unfold to_json_metadata
  rw [searchMetaBroken_eq_none_of_no_backslash h]

/-- **C2, refutation of the claimed behavior.**  In this document the
FILE METADATA body's first line is exactly of the shape
`- **Key**: Value` (third conjunct: the key-value matcher itself parses
it as `Schema Version` ↦ `1.0`), yet the `metadata` mapping produced by
`to_json` is empty: the doubled-backslash pattern of line 288 can only
match text containing a literal backslash.  The code contradicts its own
"Parse FILE METADATA into key-value pairs" intent (and the spec's
description of `to-json`). -/
theorem c2_metadata_always_empty :
    to_json_metadata
      "# AI LEARNING FILE: T\n## FILE METADATA\n- **Schema Version**: 1.0\n## DOMAIN CONTEXT\nx".data
      = [] ∧
    (searchSub fmBrokenLit
      "# AI LEARNING FILE: T\n## FILE METADATA\n- **Schema Version**: 1.0\n## DOMAIN CONTEXT\nx".data).map
        (fun p => (splitNl p.2).take 1) = some ["- **Schema Version**: 1.0".data] ∧
    parseKV "Schema Version**: 1.0".data = some ("Schema Version".data, "1.0".data) := by
  refine ⟨?_, by decide, by decide⟩
  exact to_json_metadata_empty_of_no_backslash (by decide)

/-! ## generate_hash lemmas (claims C4, C5, C10) -/

theorem lastHashIdx_eq_none_iff (ls : List (List Char)) :
    lastHashIdx ls = none ↔ ∀ x ∈ ls, isHashLine x = false := by
  induction ls with
  | nil => simp [lastHashIdx]
  | cons l t ih =>
    unfold lastHashIdx
    rcases h : lastHashIdx t with _ | j
    · rw [h] at ih
      by_cases hl : isHashLine l = true
      · simp [hl]
      · simp only [Bool.not_eq_true] at hl
        simp only [hl, Bool.false_eq_true, if_false]
        constructor
        · intro _
          intro x hx
          rcases List.mem_cons.mp hx with rfl | hx
          · exact hl
          · exact ih.mp rfl x hx
        · intro _; trivial
    · simp only []
      constructor
      · intro hcontra; cases hcontra
      · intro hall
        exfalso
        have : lastHashIdx t = none := ih.mpr (fun x hx => hall x (List.mem_cons_of_mem l hx))
        rw [this] at h; cases h

theorem fmInsert_no_marker (hline : List Char) (ls : List (List Char))
    (h : ∀ l ∈ ls, l ≠ fmMarkerLine) : fmInsert hline ls = ls := by
  induction ls with
  | nil => rfl
  | cons l t ih =>
    unfold fmInsert
    rw [if_neg (h l (List.mem_cons_self l t))]
    rw [ih (fun x hx => h x (List.mem_cons_of_mem l hx))]

/-! ## Claim C10 -/

/-- **C10.**  On a document with no hash-marker line and no line exactly
equal to `## FILE METADATA`, `generate_hash` succeeds and reports the
hash of the full document, but inserts nothing: the text written back is
byte-identical to the input. -/
theorem c10_no_insertion (f : List Char → List Char) (content : List Char)
    (hne : content ≠ [])
    (hnohash : ∀ l ∈ splitNl content, isHashLine l = false)
    (hnofm : ∀ l ∈ splitNl content, l ≠ fmMarkerLine) :
    generate_hash f content = some (f content, content) := by
  unfold generate_hash
  rw [if_neg hne]
  have hfilter : (splitNl content).filter (fun l => ! isHashLine l) = splitNl content :=
    List.filter_eq_self.mpr (fun a ha => by rw [hnohash a ha]; rfl)
  have hidx : lastHashIdx (splitNl content) = none :=
    (lastHashIdx_eq_none_iff _).mpr hnohash
  simp only [hfilter, hidx, joinNl_splitNl]
  rw [fmInsert_no_marker _ _ hnofm, joinNl_splitNl]

/-- Witness for `c10_no_insertion`. -/
theorem c10_witness :
    generate_hash (fun _ => ['a']) "plain text\nno markers here".data =
      some (['a'], "plain text\nno markers here".data) :=
  c10_no_insertion (fun _ => ['a']) "plain text\nno markers here".data
    (by decide) (by decide) (by decide)

/-! ## Claim C4 -/

theorem set_append_length (pre : List (List Char)) (l x : List Char)
    (post : List (List Char)) :
    (pre ++ l :: post).set pre.length x = pre ++ x :: post := by
  induction pre with
  | nil => rfl
  | cons a t ih =>
    show ((a :: (t ++ l :: post)).set (t.length + 1) x) = a :: (t ++ x :: post)
    rw [List.set_cons_succ, ih]

theorem lastHashIdx_some_shape : ∀ (ls : List (List Char)) (i : Nat),
    lastHashIdx ls = some i →
    ∃ pre l post, ls = pre ++ l :: post ∧ pre.length = i ∧ isHashLine l = true ∧
      ∀ x ∈ post, isHashLine x = false := by
  intro ls
  induction ls with
  | nil => intro i h; cases h
  | cons a t ih =>
    intro i h
    unfold lastHashIdx at h
    rcases ht : lastHashIdx t with _ | j
    · rw [ht] at h
      by_cases ha : isHashLine a = true
      · simp only [ha, if_true] at h
        injection h with h0
        refine ⟨[], a, t, rfl, ?_, ha, (lastHashIdx_eq_none_iff t).mp ht⟩
        simpa using h0
      · simp only [Bool.not_eq_true] at ha
        simp [ha] at h
    · rw [ht] at h
      simp only [Option.some.injEq] at h
      obtain ⟨pre, l, post, h1, h2, h3, h4⟩ := ih j ht
      refine ⟨a :: pre, l, post, by rw [h1, List.cons_append], ?_, h3, h4⟩
      simp [h2, h]

theorem lastHashIdx_append_hash (pre : List (List Char)) (x : List Char)
    (post : List (List Char)) (hx : isHashLine x = true)
    (hpost : ∀ y ∈ post, isHashLine y = false) :
    lastHashIdx (pre ++ x :: post) = some pre.length := by
  induction pre with
  | nil =>
    show lastHashIdx (x :: post) = some 0
    unfold lastHashIdx
    rw [(lastHashIdx_eq_none_iff post).mpr hpost]
    simp [hx]
  | cons a t ih =>
    show lastHashIdx (a :: (t ++ x :: post)) = some (t.length + 1)
    unfold lastHashIdx
    rw [ih]

theorem fmScanInsert_shape (hline : List Char) : ∀ (ls : List (List Char)),
    ∃ pre post, ls = pre ++ post ∧ fmScanInsert hline ls = pre ++ hline :: post := by
  intro ls
  induction ls with
  | nil => exact ⟨[], [], rfl, rfl⟩
  | cons a t ih =>
    by_cases h : "## ".data.isPrefixOf a = true
    · exact ⟨[], a :: t, rfl, by unfold fmScanInsert; rw [if_pos h]; rfl⟩
    · obtain ⟨pre, post, h1, h2⟩ := ih
      refine ⟨a :: pre, post, by rw [List.cons_append, ← h1], ?_⟩
      unfold fmScanInsert
      rw [if_neg (by simpa using h), h2]
      rfl

theorem fmInsert_shape (hline : List Char) : ∀ (ls : List (List Char)),
    fmInsert hline ls = ls ∨
    ∃ pre post, ls = pre ++ post ∧ fmInsert hline ls = pre ++ hline :: post := by
  intro ls
  induction ls with
  | nil => exact Or.inl rfl
  | cons a t ih =>
    by_cases h : a = fmMarkerLine
    · right
      obtain ⟨pre, post, h1, h2⟩ := fmScanInsert_shape hline t
      refine ⟨a :: pre, post, by rw [List.cons_append, ← h1], ?_⟩
      unfold fmInsert
      rw [if_pos h, h2]
      rfl
    · rcases ih with ih | ⟨pre, post, h1, h2⟩
      · left
        unfold fmInsert
        rw [if_neg h, ih]
      · right
        refine ⟨a :: pre, post, by rw [List.cons_append, ← h1], ?_⟩
        unfold fmInsert
        rw [if_neg h, h2]
        rfl

theorem isHashLine_mark_append (h : List Char) : isHashLine (hashLineMark ++ h) = true :=
  List.isPrefixOf_iff_prefix.mpr ⟨h, rfl⟩

theorem hashLineMark_no_newline : '\n' ∉ hashLineMark := by decide

theorem mark_append_ne_nil (h : List Char) : hashLineMark ++ h ≠ [] := by
  intro hc
  exact absurd (List.append_eq_nil.mp hc).1 (by decide)

/-- **C4.**  `generate_hash` is idempotent: whatever text and hash a first
run produces, a second run on that text reports the same hash and writes
back the identical text.  `f` abstracts `sha256(...).hexdigest()`; only
the absence of newlines in a digest is assumed. -/
theorem c4_generate_hash_idempotent (f : List Char → List Char)
    (hf : ∀ s, '\n' ∉ f s) (c h c' : List Char)
    (hrun : generate_hash f c = some (h, c')) :
    generate_hash f c' = some (h, c') := by
  have hne : c ≠ [] := by
    intro hc; rw [hc] at hrun; simp [generate_hash] at hrun
  simp only [generate_hash, if_neg hne] at hrun
  rcases hidx : lastHashIdx (splitNl c) with _ | i
  · -- no prior hash line: the FILE METADATA insertion path
    rw [hidx] at hrun
    simp only [Option.some.injEq, Prod.mk.injEq] at hrun
    obtain ⟨hh, hc'⟩ := hrun
    have hallnohash : ∀ x ∈ splitNl c, isHashLine x = false :=
      (lastHashIdx_eq_none_iff _).mp hidx
    rcases fmInsert_shape
        (hashLineMark ++ f (joinNl ((splitNl c).filter (fun l => ! isHashLine l))))
        (splitNl c) with hsame | ⟨pre, post, hdecomp, hins⟩
    · -- no `## FILE METADATA` line: nothing inserted, c' = c
      rw [hsame] at hc'
      have hcc : c' = c := by rw [← hc', joinNl_splitNl]
      subst hcc
      simp only [generate_hash, if_neg hne, hidx, hsame, joinNl_splitNl]
      rw [hh]
    · -- inserted at the end of FILE METADATA
      rw [hins] at hc'
      have hlineEq :
          hashLineMark ++ f (joinNl ((splitNl c).filter (fun l => ! isHashLine l))) =
          hashLineMark ++ h := by rw [hh]
      rw [hlineEq] at hc'
      -- the written-back line list
      have hnoNL : ∀ x ∈ pre ++ (hashLineMark ++ h) :: post, '\n' ∉ x := by
        intro x hx
        rcases List.mem_append.mp hx with hx | hx
        · exact splitNl_no_newline c x (hdecomp ▸ List.mem_append_left post hx)
        · rcases List.mem_cons.mp hx with rfl | hx
          · intro hmem
            rcases List.mem_append.mp hmem with hmem | hmem
            · exact hashLineMark_no_newline hmem
            · exact hf _ (hh ▸ hmem)
          · exact splitNl_no_newline c x (hdecomp ▸ List.mem_append_right pre hx)
      have hnonNil : pre ++ (hashLineMark ++ h) :: post ≠ [] := by simp
      have hc'ne : c' ≠ [] := by
        rw [← hc']
        exact joinNl_ne_nil_of_mem_ne
          (List.mem_append_right pre (List.mem_cons_self _ _)) (mark_append_ne_nil h)
      have hsplit' : splitNl c' = pre ++ (hashLineMark ++ h) :: post := by
        rw [← hc']
        exact splitNl_joinNl hnonNil hnoNL
      have hfilter' :
          (pre ++ (hashLineMark ++ h) :: post).filter (fun l => ! isHashLine l) =
          (splitNl c).filter (fun l => ! isHashLine l) := by
        rw [hdecomp]
        simp only [List.filter_append, List.filter_cons, isHashLine_mark_append,
          Bool.not_true, Bool.false_eq_true, if_false]
      have hidx' : lastHashIdx (pre ++ (hashLineMark ++ h) :: post) = some pre.length := by
        refine lastHashIdx_append_hash pre _ post (isHashLine_mark_append h) ?_
        intro y hy
        exact hallnohash y (hdecomp ▸ List.mem_append_right pre hy)
      simp only [generate_hash, if_neg hc'ne, hsplit', hfilter', hidx', hh,
        set_append_length]
      exact congrArg (fun t => some (h, t)) hc'
  · -- a prior hash line exists at index i: the in-place update path
    rw [hidx] at hrun
    simp only [Option.some.injEq, Prod.mk.injEq] at hrun
    obtain ⟨hh, hc'⟩ := hrun
    obtain ⟨pre, l, post, hdecomp, hlen, hl, hpost⟩ := lastHashIdx_some_shape _ i hidx
    have hset : (splitNl c).set i (hashLineMark ++ h) = pre ++ (hashLineMark ++ h) :: post := by
      rw [hdecomp, ← hlen, set_append_length]
    have hlineEq :
        hashLineMark ++ f (joinNl ((splitNl c).filter (fun l => ! isHashLine l))) =
        hashLineMark ++ h := by rw [hh]
    rw [hlineEq, hset] at hc'
    have hnoNL : ∀ x ∈ pre ++ (hashLineMark ++ h) :: post, '\n' ∉ x := by
      intro x hx
      rcases List.mem_append.mp hx with hx | hx
      · exact splitNl_no_newline c x (hdecomp ▸ List.mem_append_left (l :: post) hx)
      · rcases List.mem_cons.mp hx with rfl | hx
        · intro hmem
          rcases List.mem_append.mp hmem with hmem | hmem
          · exact hashLineMark_no_newline hmem
          · exact hf _ (hh ▸ hmem)
        · exact splitNl_no_newline c x
            (hdecomp ▸ List.mem_append_right pre (List.mem_cons_of_mem l hx))
    have hnonNil : pre ++ (hashLineMark ++ h) :: post ≠ [] := by simp
    have hc'ne : c' ≠ [] := by
      rw [← hc']
      exact joinNl_ne_nil_of_mem_ne
        (List.mem_append_right pre (List.mem_cons_self _ _)) (mark_append_ne_nil h)
    have hsplit' : splitNl c' = pre ++ (hashLineMark ++ h) :: post := by
      rw [← hc']
      exact splitNl_joinNl hnonNil hnoNL
    have hfilter' :
        (pre ++ (hashLineMark ++ h) :: post).filter (fun l => ! isHashLine l) =
        (splitNl c).filter (fun l => ! isHashLine l) := by
      rw [hdecomp]
      simp only [List.filter_append, List.filter_cons, isHashLine_mark_append, hl,
        Bool.not_true, Bool.false_eq_true, if_false]
    have hidx' : lastHashIdx (pre ++ (hashLineMark ++ h) :: post) = some pre.length :=
      lastHashIdx_append_hash pre _ post (isHashLine_mark_append h) hpost
    simp only [generate_hash, if_neg hc'ne, hsplit', hfilter', hidx', hh,
      set_append_length]
    exact congrArg (fun t => some (h, t)) hc'

/-- Witness for `c4_generate_hash_idempotent`: a first run inserts a hash
line into FILE METADATA, and the theorem applies to it. -/
theorem c4_witness :
    generate_hash (fun _ => ['0']) "# t\n## FILE METADATA\n- **A**: 1\n## NEXT\nz".data =
      some (['0'],
        "# t\n## FILE METADATA\n- **A**: 1\n- **Integrity Hash**: SHA256-0\n## NEXT\nz".data) ∧
    generate_hash (fun _ => ['0'])
        "# t\n## FILE METADATA\n- **A**: 1\n- **Integrity Hash**: SHA256-0\n## NEXT\nz".data =
      some (['0'],
        "# t\n## FILE METADATA\n- **A**: 1\n- **Integrity Hash**: SHA256-0\n## NEXT\nz".data) := by
  have h1 : generate_hash (fun _ => ['0'])
      "# t\n## FILE METADATA\n- **A**: 1\n## NEXT\nz".data =
      some (['0'],
        "# t\n## FILE METADATA\n- **A**: 1\n- **Integrity Hash**: SHA256-0\n## NEXT\nz".data) := by
    decide
  exact ⟨h1, c4_generate_hash_idempotent (fun _ => ['0'])
    (fun s => show '\n' ∉ ['0'] by decide) _ _ _ h1⟩

/-! ## Claim C5 -/

/-- Two lines related by "equal, or both are hash lines". -/
def HashLineEquiv (a b : List Char) : Prop :=
  a = b ∨ (isHashLine a = true ∧ isHashLine b = true)

theorem filter_eq_of_forall₂ {l1 l2 : List (List Char)}
    (h : List.Forall₂ HashLineEquiv l1 l2) :
    l1.filter (fun l => ! isHashLine l) = l2.filter (fun l => ! isHashLine l) := by
  induction h with
  | nil => rfl
  | @cons a b t1 t2 hab _ ih =>
    rcases hab with rfl | ⟨ha, hb⟩
    · simp only [List.filter_cons, ih]
    · simp only [List.filter_cons, ha, hb, Bool.not_true, ih, Bool.false_eq_true, if_false]

/-- **C5.**  Documents that differ only in the content of hash-marker
lines (line-by-line: equal, or both carrying the
`- **Integrity Hash**: SHA256-` prefix) receive the same computed hash
from `generate_hash`: the digest depends only on the non-hash lines. -/
theorem c5_hash_independent_of_hash_lines (f : List Char → List Char)
    (c1 c2 : List Char) (h1 : c1 ≠ []) (h2 : c2 ≠ [])
    (hrel : List.Forall₂ HashLineEquiv (splitNl c1) (splitNl c2)) :
    (generate_hash f c1).map Prod.fst = (generate_hash f c2).map Prod.fst := by
  unfold generate_hash
  rw [if_neg h1, if_neg h2]
  simp only [Option.map_some']
  rw [filter_eq_of_forall₂ hrel]

/-- Witness for `c5_hash_independent_of_hash_lines`: the same document
with two different recorded hashes. -/
theorem c5_witness :
    (generate_hash (fun s => s.take 2)
        "a\n- **Integrity Hash**: SHA256-one\nb".data).map Prod.fst =
    (generate_hash (fun s => s.take 2)
        "a\n- **Integrity Hash**: SHA256-twotwo\nb".data).map Prod.fst :=
  c5_hash_independent_of_hash_lines (fun s => s.take 2) _ _
    (by decide) (by decide)
    (List.Forall₂.cons (Or.inl rfl)
      (List.Forall₂.cons (Or.inr ⟨by decide, by decide⟩)
        (List.Forall₂.cons (Or.inl rfl) List.Forall₂.nil)))

/-! ## Claim C9 -/

theorem cpFirstLoop_post_none (entry : List Char) : ∀ (post : List (List Char)),
    (∀ x ∈ post, containsSub x chMarker = false) →
    cpFirstLoop entry true false false post = (none, false) := by
  intro post
  induction post with
  | nil => intro _; rfl
  | cons l ls ih =>
    intro h
    have hch : containsSub l chMarker = false := h l (List.mem_cons_self l ls)
    have hrest : cpFirstLoop entry true false false ls = (none, false) :=
      ih (fun x hx => h x (List.mem_cons_of_mem l hx))
    unfold cpFirstLoop
    by_cases het : containsSub l etMarker = true
    · simp only [het, if_true, hrest]
      rfl
    · simp only [het, hch, Bool.false_eq_true, if_false, Bool.and_false, Bool.false_and,
        Bool.true_and, Bool.and_true, hrest]
      rfl

theorem cpFirstLoop_pre_none (entry : List Char) : ∀ (pre rest : List (List Char)) (b : Bool),
    (∀ x ∈ pre, containsSub x etMarker = false) →
    cpFirstLoop entry false false false rest = (none, b) →
    cpFirstLoop entry false false false (pre ++ rest) = (none, b) := by
  intro pre
  induction pre with
  | nil => intro rest b _ h; exact h
  | cons a t ih =>
    intro rest b hpre hrest
    have ha : containsSub a etMarker = false := hpre a (List.mem_cons_self a t)
    have hih := ih rest b (fun x hx => hpre x (List.mem_cons_of_mem a hx)) hrest
    show cpFirstLoop entry false false false (a :: (t ++ rest)) = (none, b)
    unfold cpFirstLoop
    simp only [ha, Bool.false_eq_true, if_false, Bool.false_and, hih]
    rfl

theorem cpCreateScan_none (newls : List (List Char)) : ∀ (post : List (List Char)),
    (∀ x ∈ post, "## ".data.isPrefixOf x = false ∨ containsSub x etMarker = true) →
    cpCreateScan newls post = none := by
  intro post
  induction post with
  | nil => intro _; rfl
  | cons l ls ih =>
    intro h
    have hrest := ih (fun x hx => h x (List.mem_cons_of_mem l hx))
    unfold cpCreateScan
    rcases h l (List.mem_cons_self l ls) with hl | hl
    · simp only [hl, Bool.false_and, Bool.false_eq_true, if_false, hrest]
      rfl
    · simp only [hl, Bool.not_true, Bool.and_false, Bool.false_eq_true, if_false, hrest]
      rfl

theorem cpCreate_none (newls : List (List Char)) :
    ∀ (pre : List (List Char)) (l : List Char) (post : List (List Char)),
    (∀ x ∈ pre, containsSub x etMarker = false) →
    containsSub l etMarker = true →
    cpCreateScan newls post = none →
    cpCreate newls (pre ++ l :: post) = none := by
  intro pre
  induction pre with
  | nil =>
    intro l post _ hl hpost
    show cpCreate newls (l :: post) = none
    unfold cpCreate
    simp only [hl, if_true, hpost]
    rfl
  | cons a t ih =>
    intro l post hpre hl hpost
    have ha : containsSub a etMarker = false := hpre a (List.mem_cons_self a t)
    have hih := ih l post (fun x hx => hpre x (List.mem_cons_of_mem a hx)) hl hpost
    show cpCreate newls (a :: (t ++ l :: post)) = none
    unfold cpCreate
    simp only [ha, Bool.false_eq_true, if_false, hih]
    rfl

/-- **C9.**  On a document whose `## EVOLUTION TRACKING` marker is
followed by no `### Checkpoint History` line and by no `## ` section
line other than ones containing the marker itself (e.g. when EVOLUTION
TRACKING is the last top-level section), `add_checkpoint` terminates
abnormally: the creation scan's loop condition
`(j < len(lines) and not lines[j].startswith("## ")) or "## EVOLUTION
TRACKING" in lines[j]` evaluates `lines[j]` at `j = len(lines)` and
raises an uncaught `IndexError`. -/
theorem c9_creation_scan_index_error (content ts desc : List Char)
    (pre : List (List Char)) (l : List Char) (post : List (List Char))
    (hsplit : splitNl content = pre ++ l :: post)
    (hpre : ∀ x ∈ pre, containsSub x etMarker = false)
    (hl : containsSub l etMarker = true)
    (hpost_ch : ∀ x ∈ post, containsSub x chMarker = false)
    (hpost_sec : ∀ x ∈ post, "## ".data.isPrefixOf x = false ∨ containsSub x etMarker = true) :
    add_checkpoint content ts desc = .indexError := by
  have hne : content ≠ [] := by
    intro hc
    subst hc
    have h0 : pre ++ l :: post = [[]] := by rw [← hsplit]; rfl
    cases pre with
    | nil =>
      simp only [List.nil_append, List.cons.injEq] at h0
      rw [h0.1] at hl
      exact absurd hl (by decide)
    | cons a t =>
      have := congrArg List.length h0
      simp [List.length_append] at this
  have hloop : ∀ e, cpFirstLoop e false false false (splitNl content) = (none, false) := by
    intro e
    rw [hsplit]
    refine cpFirstLoop_pre_none e pre (l :: post) false hpre ?_
    have h1 : cpFirstLoop e true false false post = (none, false) :=
      cpFirstLoop_post_none e post hpost_ch
    unfold cpFirstLoop
    simp only [hl, if_true, h1]
    rfl
  have hcreate : ∀ nl, cpCreate nl (splitNl content) = none := by
    intro nl
    rw [hsplit]
    exact cpCreate_none nl pre l post hpre hl (cpCreateScan_none nl post hpost_sec)
  simp only [add_checkpoint, if_neg hne, hloop, hcreate, Bool.false_eq_true, if_false]

/-- Witness for `c9_creation_scan_index_error`: a document where
EVOLUTION TRACKING is the final section. -/
theorem c9_witness :
    add_checkpoint "## EVOLUTION TRACKING\ntail text".data
      "2026-01-01T00:00:00Z".data "note".data = .indexError :=
  c9_creation_scan_index_error _ _ _ [] "## EVOLUTION TRACKING".data ["tail text".data]
    (by decide)
    (by intro x hx; cases hx)
    (by decide)
    (by intro x hx; simp only [List.mem_singleton] at hx; subst hx; decide)
    (by intro x hx; simp only [List.mem_singleton] at hx; subst hx; left; decide)

/-! ## Claim C3 -/

/-- **C3, counterexample.**  When the `### Checkpoint History` line lies
in the final top-level section (no later `## ` line follows), the first
scan never finds an insertion point, `checkpoint_section_found` is true
so the creation branch is skipped, and `add_checkpoint` reports success
while writing the document back unchanged: no checkpoint line is added. -/
theorem c3_counterexample :
    add_checkpoint
      "## EVOLUTION TRACKING\n### Checkpoint History\n- **2024-01-01T00:00:00Z**: old".data
      "2026-02-03T04:05:06Z".data "extra".data =
    .ok "## EVOLUTION TRACKING\n### Checkpoint History\n- **2024-01-01T00:00:00Z**: old".data := by
  decide

theorem cpFirstLoop_some (entry : List Char) : ∀ (ls : List (List Char))
    (inET inCP found : Bool) (r : List (List Char)) (b : Bool),
    (inCP = true → found = true) →
    cpFirstLoop entry inET inCP found ls = (some r, b) →
    b = true ∧ ∃ pre post, ls = pre ++ post ∧ r = pre ++ entry :: post := by
  intro ls
  induction ls with
  | nil =>
    intro inET inCP found r b _ h
    exact absurd (congrArg Prod.fst h) (by simp [cpFirstLoop])
  | cons l t ih =>
    intro inET inCP found r b hinv h
    unfold cpFirstLoop at h
    by_cases h1 : containsSub l etMarker = true
    · simp only [h1, if_true] at h
      rcases hrec : (cpFirstLoop entry true inCP found t) with ⟨o, b'⟩
      rw [hrec] at h
      cases o with
      | none => exact absurd (congrArg Prod.fst h) (by simp)
      | some r' =>
        simp only [Option.map_some', Prod.mk.injEq, Option.some.injEq] at h
        obtain ⟨hr, hb⟩ := h
        obtain ⟨hb', pre, post, hd, hrr⟩ := ih true inCP found r' b' hinv hrec
        exact ⟨hb ▸ hb', l :: pre, post, by rw [hd, List.cons_append],
          by rw [← hr, hrr, List.cons_append]⟩
    · simp only [h1, Bool.false_eq_true, if_false] at h
      by_cases h2 : (inET && containsSub l chMarker) = true
      · simp only [h2, if_true] at h
        rcases hrec : (cpFirstLoop entry inET true true t) with ⟨o, b'⟩
        rw [hrec] at h
        cases o with
        | none => exact absurd (congrArg Prod.fst h) (by simp)
        | some r' =>
          simp only [Option.map_some', Prod.mk.injEq, Option.some.injEq] at h
          obtain ⟨hr, hb⟩ := h
          obtain ⟨hb', pre, post, hd, hrr⟩ := ih inET true true r' b' (fun _ => rfl) hrec
          exact ⟨hb ▸ hb', l :: pre, post, by rw [hd, List.cons_append],
            by rw [← hr, hrr, List.cons_append]⟩
      · simp only [h2, Bool.false_eq_true, if_false] at h
        by_cases h3 : (inET && inCP && "## ".data.isPrefixOf l && ! containsSub l chMarker) = true
        · simp only [h3, if_true, Prod.mk.injEq, Option.some.injEq] at h
          obtain ⟨hr, hb⟩ := h
          have hcp : inCP = true := by
            simp only [Bool.and_eq_true] at h3
            exact h3.1.1.2
          exact ⟨hb ▸ hinv hcp, [], l :: t, rfl, hr.symm⟩
        · simp only [h3, Bool.false_eq_true, if_false] at h
          by_cases h4 : (inET && inCP && containsSub l emptyBoldMarker) = true
          · simp only [h4, if_true, Prod.mk.injEq, Option.some.injEq] at h
            obtain ⟨hr, hb⟩ := h
            have hcp : inCP = true := by
              simp only [Bool.and_eq_true] at h4
              exact h4.1.2
            exact ⟨hb ▸ hinv hcp, [l], t, rfl, hr.symm⟩
          · simp only [h4, Bool.false_eq_true, if_false] at h
            rcases hrec : (cpFirstLoop entry inET inCP found t) with ⟨o, b'⟩
            rw [hrec] at h
            cases o with
            | none => exact absurd (congrArg Prod.fst h) (by simp)
            | some r' =>
              simp only [Option.map_some', Prod.mk.injEq, Option.some.injEq] at h
              obtain ⟨hr, hb⟩ := h
              obtain ⟨hb', pre, post, hd, hrr⟩ := ih inET inCP found r' b' hinv hrec
              exact ⟨hb ▸ hb', l :: pre, post, by rw [hd, List.cons_append],
                by rw [← hr, hrr, List.cons_append]⟩


/-! ## Claim C6 -/

/-- The identity key the spec describes: the entry's timestamp together
with the first five lines of its trimmed body. -/
def entryKey (p : List Char × List Char) : List Char × List Char :=
  (findTs p.1, entrySummary p.2)

/-- The identifier string the code hashes, as a function of the key. -/
def identOfKey (k : List Char × List Char) : List Char := k.1 ++ '|' :: k.2

/-- Keep the first entry per key, in order: the deduplication criterion
as the spec words it. -/
def keepFirstByKey (seen : List (List Char × List Char)) :
    List (List Char × List Char) → List (List Char × List Char)
  | [] => []
  | p :: rest =>
    if entryKey p ∈ seen then keepFirstByKey seen rest
    else p :: keepFirstByKey (entryKey p :: seen) rest

theorem pipe_append_inj : ∀ {t1 t2 s1 s2 : List Char}, '|' ∉ t1 → '|' ∉ t2 →
    t1 ++ '|' :: s1 = t2 ++ '|' :: s2 → t1 = t2 ∧ s1 = s2 := by
  intro t1
  induction t1 with
  | nil =>
    intro t2 s1 s2 _ h2 he
    cases t2 with
    | nil => simpa using he
    | cons c t2' =>
      exfalso
      simp only [List.nil_append, List.cons_append, List.cons.injEq] at he
      exact h2 (List.mem_cons.mpr (Or.inl he.1))
  | cons c t1' ih =>
    intro t2 s1 s2 h1 h2 he
    cases t2 with
    | nil =>
      exfalso
      simp only [List.cons_append, List.nil_append, List.cons.injEq] at he
      exact h1 (List.mem_cons.mpr (Or.inl he.1.symm))
    | cons c2 t2' =>
      simp only [List.cons_append, List.cons.injEq] at he
      obtain ⟨rfl, he'⟩ := he
      have h1' : '|' ∉ t1' := fun hh => h1 (List.mem_cons_of_mem c hh)
      have h2' : '|' ∉ t2' := fun hh => h2 (List.mem_cons_of_mem c hh)
      obtain ⟨ht, hs⟩ := ih h1' h2' he'
      exact ⟨by rw [ht], hs⟩

theorem matchShape_take : ∀ {ps : List (Char → Bool)} {s : List Char},
    matchShape ps s = true → ∀ c ∈ s.take ps.length, ∃ p ∈ ps, p c = true := by
  intro ps
  induction ps with
  | nil => intro s _ c hc; simp at hc
  | cons p pt ih =>
    intro s hm c hc
    cases s with
    | nil => simp [matchShape] at hm
    | cons a as =>
      simp only [matchShape, Bool.and_eq_true] at hm
      simp only [List.length_cons, List.take_succ_cons, List.mem_cons] at hc
      rcases hc with rfl | hc
      · exact ⟨p, List.mem_cons_self p pt, hm.1⟩
      · obtain ⟨q, hq, hqc⟩ := ih hm.2 c hc
        exact ⟨q, List.mem_cons_of_mem p hq, hqc⟩

theorem findTs_no_pipe (h : List Char) : '|' ∉ findTs h := by
  induction h with
  | nil => simp [findTs]
  | cons c cs ih =>
    unfold findTs
    by_cases hm : matchShape tsShape (c :: cs) = true
    · rw [if_pos hm]
      intro hmem
      have h19 : (c :: cs).take 19 = (c :: cs).take tsShape.length := rfl
      obtain ⟨p, hp, hpc⟩ := matchShape_take hm '|' (h19 ▸ hmem)
      have hfalse : p '|' = false := by
        fin_cases hp <;> decide
      rw [hfalse] at hpc; cases hpc
    · rw [if_neg hm]; exact ih

theorem processPairs_eq_keepFirst : ∀ (ps : List (List Char × List Char))
    (seenK : List (List Char × List Char)),
    (∀ k ∈ seenK, '|' ∉ k.1) →
    (processPairs (seenK.map identOfKey) ps).1 = keepFirstByKey seenK ps := by
  intro ps
  induction ps with
  | nil => intro _ _; rfl
  | cons p rest ih =>
    intro seenK hseen
    obtain ⟨h, b⟩ := p
    have hident : entryIdent h b = identOfKey (entryKey (h, b)) := rfl
    by_cases hk : entryKey (h, b) ∈ seenK
    · have hi : entryIdent h b ∈ seenK.map identOfKey := by
        rw [hident]; exact List.mem_map_of_mem identOfKey hk
      simp only [processPairs, keepFirstByKey, if_pos hi, if_pos hk]
      exact ih seenK hseen
    · have hi : entryIdent h b ∉ seenK.map identOfKey := by
        intro hmem
        rcases List.mem_map.mp hmem with ⟨k, hkmem, hkeq⟩
        have heq : k.1 ++ '|' :: k.2 =
            (entryKey (h, b)).1 ++ '|' :: (entryKey (h, b)).2 := hkeq
        obtain ⟨ht, hs⟩ :=
          pipe_append_inj (hseen k hkmem) (findTs_no_pipe h) heq
        have : k = entryKey (h, b) := Prod.ext ht hs
        exact hk (this ▸ hkmem)
      simp only [processPairs, keepFirstByKey, if_neg hi, if_neg hk]
      have hmap : entryIdent h b :: seenK.map identOfKey =
          (entryKey (h, b) :: seenK).map identOfKey := by
        rw [hident]; rfl
      rw [hmap, ih (entryKey (h, b) :: seenK)
        (fun k hkm => by
          rcases List.mem_cons.mp hkm with rfl | hkm
          · exact findTs_no_pipe h
          · exact hseen k hkm)]

theorem processPairs_snd_add : ∀ (ps : List (List Char × List Char))
    (seen : List (List Char)),
    (processPairs seen ps).2 + (processPairs seen ps).1.length = ps.length := by
  intro ps
  induction ps with
  | nil => intro _; rfl
  | cons p rest ih =>
    intro seen
    obtain ⟨h, b⟩ := p
    by_cases hi : entryIdent h b ∈ seen
    · simp only [processPairs, if_pos hi, List.length_cons]
      have := ih seen
      omega
    · simp only [processPairs, if_neg hi, List.length_cons]
      have := ih (entryIdent h b :: seen)
      omega

/-- **C6.**  With auto-confirm, `deduplicate_learnings` retains exactly
the first entry of each (timestamp, first-five-body-lines) key and
reports the number of later entries sharing a key with an earlier one:
two entries are duplicates iff their timestamps and the first five lines
of their trimmed bodies agree (later body lines are irrelevant; a
difference within the first five lines keeps both).  SHA-256 on the
identifier `timestamp|summary` is modeled as equality of identifiers. -/
theorem c6_dedup_identity (content p1 g2 resp : List Char)
    (hne : content ≠ [])
    (hsearch : searchSub alMarker content = some (p1, g2)) :
    deduplicate_learnings content true resp =
      .written
        ((pairList (splitLE g2)).length - (keepFirstByKey [] (pairList (splitLE g2))).length)
        (pyReplace content (alMarker ++ g2)
          (alMarker ++ pyStrip (joinAll (e0keepOf (splitLE g2) ++
            flattenPairs (keepFirstByKey [] (pairList (splitLE g2))))))) := by
  have hkept : (processPairs [] (pairList (splitLE g2))).1 =
      keepFirstByKey [] (pairList (splitLE g2)) :=
    processPairs_eq_keepFirst (pairList (splitLE g2)) [] (fun k hk => absurd hk (List.not_mem_nil k))
  have hadd := processPairs_snd_add (pairList (splitLE g2)) []
  have hcount : (processPairs [] (pairList (splitLE g2))).2 =
      (pairList (splitLE g2)).length - (keepFirstByKey [] (pairList (splitLE g2))).length := by
    rw [← hkept]; omega
  simp only [deduplicate_learnings, if_neg hne, hsearch]
  rw [if_neg (by intro hc; exact absurd hc.2.1 (by decide))]
  rw [hkept, hcount]

/-- The learnings-section content of the C6 witness document. -/
def g2w : List Char :=
  "\n### Learning Entry - 2024-01-01 10:00:00\nl1\nl2\nl3\nl4\nl5\nsix-a\n### Learning Entry - 2024-01-01 10:00:00\nl1\nl2\nl3\nl4\nl5\nsix-b\n### Learning Entry - 2024-01-01 10:00:00\nDIFF\nx".data

/-- Witness for `c6_dedup_identity`: two entries agreeing on timestamp
and first five body lines (differing at line six) collapse to one, while
a third with the same timestamp but different first lines survives. -/
theorem c6_witness :
    deduplicate_learnings
      ("## AUTOMATED LEARNINGS\n\n### Learning Entry - 2024-01-01 10:00:00\nl1\nl2\nl3\nl4\nl5\nsix-a\n### Learning Entry - 2024-01-01 10:00:00\nl1\nl2\nl3\nl4\nl5\nsix-b\n### Learning Entry - 2024-01-01 10:00:00\nDIFF\nx".data)
      true [] =
      .written
        ((pairList (splitLE g2w)).length - (keepFirstByKey [] (pairList (splitLE g2w))).length)
        (pyReplace
          ("## AUTOMATED LEARNINGS\n\n### Learning Entry - 2024-01-01 10:00:00\nl1\nl2\nl3\nl4\nl5\nsix-a\n### Learning Entry - 2024-01-01 10:00:00\nl1\nl2\nl3\nl4\nl5\nsix-b\n### Learning Entry - 2024-01-01 10:00:00\nDIFF\nx".data)
          (alMarker ++ g2w)
          (alMarker ++ pyStrip (joinAll (e0keepOf (splitLE g2w) ++
            flattenPairs (keepFirstByKey [] (pairList (splitLE g2w))))))) :=
  c6_dedup_identity _ [] g2w [] (by decide) (by decide)

/-! ## Claim C8 -/

/-- **C8, counterexample.**  The code compares `response.lower() != 'y'`,
so the response `"Y"` — which is not `'y'` — does *not* abort: with one
duplicate found and `autoConfirm` false, answering `Y` proceeds to remove
the duplicate and write the file. -/
theorem c8_counterexample :
    deduplicate_learnings
      "## AUTOMATED LEARNINGS\n\n### Learning Entry - 2024-01-01 10:00:00\nA\n### Learning Entry - 2024-01-01 10:00:00\nA".data
      false "Y".data =
      .written 1 "## AUTOMATED LEARNINGS\n### Learning Entry - 2024-01-01 10:00:00\nA".data ∧
    "Y".data ≠ "y".data := by
  refine ⟨rfl, by decide⟩

/-- **C8, amended.**  When duplicates are found and `autoConfirm` is
false, the operation consults the interactive response, and any response
whose lowercase form is not `y` makes it abort with the cancelled result
(no write, the file is untouched); `y` and `Y` proceed. -/
theorem c8_amended (content p1 g2 resp : List Char)
    (hne : content ≠ [])
    (hsearch : searchSub alMarker content = some (p1, g2))
    (hdup : 0 < (processPairs [] (pairList (splitLE g2))).2)
    (hresp : pyLower resp ≠ ['y']) :
    deduplicate_learnings content false resp = .cancelled := by
  simp only [deduplicate_learnings, if_neg hne, hsearch]
  split
  · rfl
  · rename_i hcond
    exact absurd ⟨hdup, trivial, hresp⟩ hcond

/-- Witness for `c8_amended`: response `no` aborts. -/
theorem c8_amended_witness :
    deduplicate_learnings
      "## AUTOMATED LEARNINGS\n\n### Learning Entry - 2024-01-01 10:00:00\nA\n### Learning Entry - 2024-01-01 10:00:00\nA".data
      false "no".data = .cancelled :=
  c8_amended _ []
    "\n### Learning Entry - 2024-01-01 10:00:00\nA\n### Learning Entry - 2024-01-01 10:00:00\nA".data
    "no".data (by decide) (by decide) (by decide) (by decide)

/-! ## Claim C7 -/

theorem dropWhile_dropWhile (p : Char → Bool) (l : List Char) :
    (l.dropWhile p).dropWhile p = l.dropWhile p := by
  induction l with
  | nil => rfl
  | cons c cs ih =>
    by_cases h : p c = true
    · rw [List.dropWhile_cons_of_pos h]
      exact ih
    · rw [List.dropWhile_cons_of_neg (by simpa using h),
        List.dropWhile_cons_of_neg (by simpa using h)]

theorem pyLStrip_head_false : ∀ {l : List Char} {c : Char} {t : List Char},
    pyLStrip l = c :: t → isPySpace c = false := by
  intro l
  induction l with
  | nil => intro c t h; cases h
  | cons a as ih =>
    intro c t h
    by_cases hp : isPySpace a = true
    · rw [pyLStrip, List.dropWhile_cons_of_pos hp] at h
      exact ih h
    · rw [pyLStrip, List.dropWhile_cons_of_neg (by simpa using hp)] at h
      obtain ⟨h1, -⟩ := List.cons.inj h
      rw [← h1]
      simpa using hp

theorem pyRStrip_front (t : List Char) : pyRStrip t <+: t := by
  unfold pyRStrip
  have h1 : t.reverse.dropWhile isPySpace <:+ t.reverse := List.dropWhile_suffix _
  have h2 := List.reverse_prefix.mpr h1
  rwa [List.reverse_reverse] at h2

theorem pyRStrip_pyRStrip (s : List Char) : pyRStrip (pyRStrip s) = pyRStrip s := by
  show pyRStrip ((s.reverse.dropWhile isPySpace).reverse) = pyRStrip s
  unfold pyRStrip
  rw [List.reverse_reverse, dropWhile_dropWhile]

theorem pyStrip_idem (s : List Char) : pyStrip (pyStrip s) = pyStrip s := by
  show pyRStrip (pyLStrip (pyRStrip (pyLStrip s))) = pyRStrip (pyLStrip s)
  have hl : pyLStrip (pyRStrip (pyLStrip s)) = pyRStrip (pyLStrip s) := by
    rcases hr : pyRStrip (pyLStrip s) with _ | ⟨c, t⟩
    · rfl
    · have hpre : pyRStrip (pyLStrip s) <+: pyLStrip s := pyRStrip_front _
      rw [hr] at hpre
      obtain ⟨t', ht'⟩ := hpre
      have hc : isPySpace c = false := by
        refine pyLStrip_head_false (l := s) (c := c) (t := t ++ t') ?_
        rw [← ht']
        rfl
      show List.dropWhile isPySpace (c :: t) = c :: t
      rw [List.dropWhile_cons_of_neg (by simp [hc])]
  rw [hl, pyRStrip_pyRStrip]

theorem pyStrip_eq_nil_all_space {e : List Char} (h : pyStrip e = []) :
    ∀ c ∈ e, isPySpace c = true := by
  have h2 : (pyLStrip e).reverse.dropWhile isPySpace = [] := by
    have h3 : ((pyLStrip e).reverse.dropWhile isPySpace).reverse = [] := h
    rwa [List.reverse_eq_nil_iff] at h3
  have h4 : ∀ c ∈ pyLStrip e, isPySpace c = true := fun c hc =>
    List.dropWhile_eq_nil_iff.mp h2 c (List.mem_reverse.mpr hc)
  intro c hc
  have h5 := List.takeWhile_append_dropWhile (p := isPySpace) (l := e)
  rw [← h5] at hc
  rcases List.mem_append.mp hc with hc | hc
  · exact List.mem_takeWhile_imp hc
  · exact h4 c hc

theorem pyLStrip_append_all_space {e : List Char} (h : ∀ c ∈ e, isPySpace c = true)
    (t : List Char) : pyLStrip (e ++ t) = pyLStrip t := by
  induction e with
  | nil => rfl
  | cons a as ih =>
    rw [List.cons_append]
    show List.dropWhile isPySpace (a :: (as ++ t)) = _
    rw [List.dropWhile_cons_of_pos (h a (List.mem_cons_self a as))]
    exact ih (fun c hc => h c (List.mem_cons_of_mem a hc))

theorem pyStrip_append_of_strip_nil {e : List Char} (h : pyStrip e = []) (t : List Char) :
    pyStrip (e ++ t) = pyStrip t := by
  show pyRStrip (pyLStrip (e ++ t)) = pyRStrip (pyLStrip t)
  rw [pyLStrip_append_all_space (pyStrip_eq_nil_all_space h) t]

theorem splitLEAuxF_struct : ∀ (fuel : Nat) (s acc : List Char), s.length ≤ fuel →
    ∃ hd tl, splitLEAuxF fuel acc s = hd :: tl ∧
      flattenPairs (pairsAux tl) = tl ∧
      joinAll (hd :: tl) = acc.reverse ++ s := by
  intro fuel
  induction fuel with
  | zero =>
    intro s acc h1
    have hs : s = [] := List.eq_nil_of_length_eq_zero (Nat.le_zero.mp h1)
    subst hs
    exact ⟨acc.reverse, [], rfl, rfl, by simp [joinAll]⟩
  | succ f ih =>
    intro s acc h1
    cases s with
    | nil =>
      rw [splitLEAuxF_nil_any]
      exact ⟨acc.reverse, [], rfl, rfl, by simp [joinAll]⟩
    | cons c cs =>
      by_cases hm : matchLeSep (c :: cs) = true
      · rw [splitLEAuxF_succ_match f acc hm]
        have h42 := matchLeSep_length hm
        obtain ⟨hd', tl', heq, hflat, hjoin⟩ := ih ((c :: cs).drop 42) []
          (by
            simp only [List.length_drop]
            simp only [List.length_cons] at h1 ⊢
            omega)
        rw [heq]
        refine ⟨acc.reverse, (c :: cs).take 42 :: hd' :: tl', rfl, ?_, ?_⟩
        · show (c :: cs).take 42 :: hd' :: flattenPairs (pairsAux tl') =
            (c :: cs).take 42 :: hd' :: tl'
          rw [hflat]
        · show acc.reverse ++ ((c :: cs).take 42 ++ joinAll (hd' :: tl')) =
            acc.reverse ++ c :: cs
          rw [hjoin]
          simp only [List.reverse_nil, List.nil_append]
          rw [List.take_append_drop]
      · rw [splitLEAuxF_succ_nomatch f acc hm]
        obtain ⟨hd, tl, heq, hflat, hjoin⟩ := ih cs (c :: acc)
          (by simp only [List.length_cons] at h1; omega)
        refine ⟨hd, tl, heq, hflat, ?_⟩
        rw [hjoin]
        simp [List.reverse_cons, List.append_assoc]

theorem splitLE_struct (s : List Char) :
    ∃ hd tl, splitLE s = hd :: tl ∧ flattenPairs (pairsAux tl) = tl ∧
      joinAll (hd :: tl) = s := by
  obtain ⟨hd, tl, h1, h2, h3⟩ := splitLEAuxF_struct s.length s [] (Nat.le_refl _)
  exact ⟨hd, tl, h1, h2, by simpa using h3⟩

theorem processPairs_zero : ∀ (ps : List (List Char × List Char)) (seen : List (List Char)),
    (processPairs seen ps).2 = 0 → (processPairs seen ps).1 = ps := by
  intro ps
  induction ps with
  | nil => intro _ _; rfl
  | cons p rest ih =>
    intro seen h
    obtain ⟨ph, pb⟩ := p
    by_cases hi : entryIdent ph pb ∈ seen
    · exfalso
      simp only [processPairs, if_pos hi] at h
      exact Nat.succ_ne_zero _ h
    · simp only [processPairs, if_neg hi] at h ⊢
      rw [ih _ h]

theorem nil_of_isPrefixOf_nil {n : List Char} (h : n.isPrefixOf ([] : List Char) = true) :
    n = [] := by
  cases n with
  | nil => rfl
  | cons a t => simp [List.isPrefixOf] at h

theorem searchSub_decomp : ∀ {s n p r : List Char},
    searchSub n s = some (p, r) → s = p ++ (n ++ r) := by
  intro s
  induction s with
  | nil =>
    intro n p r h
    unfold searchSub at h
    by_cases hp : n.isPrefixOf ([] : List Char) = true
    · rw [if_pos hp] at h
      simp only [Option.some.injEq, Prod.mk.injEq] at h
      obtain ⟨h1, h2⟩ := h
      rw [← h1, ← h2, nil_of_isPrefixOf_nil hp]
      rfl
    · rw [if_neg hp] at h; cases h
  | cons c cs ih =>
    intro n p r h
    unfold searchSub at h
    by_cases hp : n.isPrefixOf (c :: cs) = true
    · rw [if_pos hp] at h
      simp only [Option.some.injEq, Prod.mk.injEq] at h
      obtain ⟨h1, h2⟩ := h
      rw [← h1, ← h2, List.nil_append]
      exact (List.prefix_iff_eq_append.mp (List.isPrefixOf_iff_prefix.mp hp)).symm
    · rw [if_neg hp] at h
      rcases hcs : searchSub n cs with _ | ⟨p', r'⟩
      · rw [hcs] at h; cases h
      · rw [hcs] at h
        simp only [Option.map_some', Option.some.injEq, Prod.mk.injEq] at h
        obtain ⟨h1, h2⟩ := h
        rw [← h1, List.cons_append]
        rw [← h2]
        exact congrArg (fun t => c :: t) (ih hcs)

theorem searchSub_hit {n t : List Char} (h : n.isPrefixOf t = true) :
    searchSub n t = some ([], t.drop n.length) := by
  cases t with
  | nil =>
    show (if n.isPrefixOf ([] : List Char) then some ([], ([] : List Char)) else none) = _
    rw [if_pos h, List.drop_nil]
  | cons c cs =>
    show (if n.isPrefixOf (c :: cs) then some ([], (c :: cs).drop n.length) else _) = _
    rw [if_pos h]

theorem pyReplace_tail {n : List Char} (hn : n ≠ []) :
    ∀ (s p r r2 : List Char), searchSub n s = some (p, r) →
      pyReplace s (n ++ r) (n ++ r2) = p ++ (n ++ r2) := by
  intro s
  induction s with
  | nil =>
    intro p r r2 h
    unfold searchSub at h
    by_cases hp : n.isPrefixOf ([] : List Char) = true
    · exact absurd (nil_of_isPrefixOf_nil hp) hn
    · rw [if_neg hp] at h; cases h
  | cons c cs ih =>
    intro p r r2 h
    unfold searchSub at h
    by_cases hp : n.isPrefixOf (c :: cs) = true
    · rw [if_pos hp] at h
      simp only [Option.some.injEq, Prod.mk.injEq] at h
      obtain ⟨h1, h2⟩ := h
      have hs : n ++ r = c :: cs := by
        rw [← h2]
        exact List.prefix_iff_eq_append.mp (List.isPrefixOf_iff_prefix.mp hp)
      have holdne : n ++ r ≠ [] := by
        intro hcontra
        exact hn (List.append_eq_nil.mp hcontra).1
      have holdpre : (n ++ r).isPrefixOf (c :: cs) = true := by
        rw [hs]
        exact List.isPrefixOf_iff_prefix.mpr (List.prefix_refl _)
      rw [pyReplace_match (n ++ r2) holdne holdpre]
      have hdrop : (c :: cs).drop (n ++ r).length = [] := by
        rw [← hs, List.drop_length]
      rw [hdrop, pyReplace_nil, ← h1, List.nil_append, List.append_nil]
    · rw [if_neg hp] at h
      rcases hcs : searchSub n cs with _ | ⟨p', r'⟩
      · rw [hcs] at h; cases h
      · rw [hcs] at h
        simp only [Option.map_some', Option.some.injEq, Prod.mk.injEq] at h
        obtain ⟨h1, h2⟩ := h
        rw [h2] at hcs
        have hno : ¬((n ++ r) ≠ [] ∧ (n ++ r).isPrefixOf (c :: cs) = true) := by
          intro hcontra
          refine absurd ?_ hp
          exact List.isPrefixOf_iff_prefix.mpr
            ((List.prefix_append n r).trans (List.isPrefixOf_iff_prefix.mp hcontra.2))
        rw [pyReplace_nomatch (n ++ r2) hno, ih p' r r2 hcs, ← h1, List.cons_append]

theorem isPrefixOf_iff_take {n t : List Char} :
    n.isPrefixOf t = true ↔ n = t.take n.length := by
  rw [List.isPrefixOf_iff_prefix]
  exact List.prefix_iff_eq_take

theorem searchSub_stable {n : List Char} (hn : n ≠ []) :
    ∀ (s p r r2 : List Char), searchSub n s = some (p, r) →
      searchSub n (p ++ (n ++ r2)) = some (p, r2) := by
  intro s
  induction s with
  | nil =>
    intro p r r2 h
    unfold searchSub at h
    by_cases hp : n.isPrefixOf ([] : List Char) = true
    · exact absurd (nil_of_isPrefixOf_nil hp) hn
    · rw [if_neg hp] at h; cases h
  | cons c cs ih =>
    intro p r r2 h
    unfold searchSub at h
    by_cases hp : n.isPrefixOf (c :: cs) = true
    · rw [if_pos hp] at h
      simp only [Option.some.injEq, Prod.mk.injEq] at h
      obtain ⟨h1, -⟩ := h
      rw [← h1, List.nil_append]
      rw [searchSub_hit (List.isPrefixOf_iff_prefix.mpr (List.prefix_append n r2))]
      rw [List.drop_left]
    · rw [if_neg hp] at h
      rcases hcs : searchSub n cs with _ | ⟨p', r'⟩
      · rw [hcs] at h; cases h
      · rw [hcs] at h
        simp only [Option.map_some', Option.some.injEq, Prod.mk.injEq] at h
        obtain ⟨h1, h2⟩ := h
        rw [h2] at hcs
        rw [← h1, List.cons_append]
        have hdecomp : cs = p' ++ (n ++ r) := searchSub_decomp hcs
        have htake : ∀ rx : List Char, (c :: (p' ++ (n ++ rx))).take n.length =
            c :: (p' ++ n).take (n.length - 1) := by
          intro rx
          cases hlen : n.length with
          | zero =>
            exfalso
            exact hn (List.eq_nil_of_length_eq_zero hlen)
          | succ k =>
            have hk : k < (p' ++ n).length := by
              simp only [List.length_append]
              omega
            simp only [List.take_succ_cons]
            refine congrArg (fun t => c :: t) ?_
            rw [show p' ++ (n ++ rx) = (p' ++ n) ++ rx from (List.append_assoc p' n rx).symm]
            rw [List.take_append_eq_append_take]
            have hz : k - (p' ++ n).length = 0 := by omega
            rw [hz]
            simp
        have hnp2 : ¬ n.isPrefixOf (c :: (p' ++ (n ++ r2))) = true := by
          intro hcontra
          refine absurd ?_ hp
          rw [isPrefixOf_iff_take] at hcontra ⊢
          have hcs2 : (c :: cs).take n.length = c :: (p' ++ n).take (n.length - 1) := by
            rw [hdecomp]
            exact htake r
          rw [hcs2, ← htake r2]
          exact hcontra
        show (if n.isPrefixOf (c :: (p' ++ (n ++ r2))) then _ else
          (searchSub n (p' ++ (n ++ r2))).map (fun q => (c :: q.1, q.2))) = _
        rw [if_neg hnp2, ih p' r r2 hcs]
        rfl

theorem pyReplace_selfF : ∀ (nn : Nat) (s old : List Char),
    s.length ≤ nn → pyReplace s old old = s := by
  intro nn
  induction nn with
  | zero =>
    intro s old h
    rw [List.eq_nil_of_length_eq_zero (Nat.le_zero.mp h)]
    rfl
  | succ m ih =>
    intro s old h
    cases s with
    | nil => rfl
    | cons c cs =>
      by_cases hm : old ≠ [] ∧ old.isPrefixOf (c :: cs) = true
      · rw [pyReplace_match old hm.1 hm.2]
        have hpos : 0 < old.length := List.length_pos.mpr hm.1
        have hlen : old.length ≤ (c :: cs).length :=
          (List.isPrefixOf_iff_prefix.mp hm.2).length_le
        rw [ih ((c :: cs).drop old.length) old
          (by
            simp only [List.length_drop]
            simp only [List.length_cons] at h hlen ⊢
            omega)]
        exact List.prefix_iff_eq_append.mp (List.isPrefixOf_iff_prefix.mp hm.2)
      · rw [pyReplace_nomatch old hm,
          ih cs old (by simp only [List.length_cons] at h; omega)]

theorem pyReplace_self (s old : List Char) : pyReplace s old old = s :=
  pyReplace_selfF s.length s old (Nat.le_refl _)

theorem append_alMarker_ne_nil (p t : List Char) : p ++ (alMarker ++ t) ≠ [] := by
  intro h
  rcases List.append_eq_nil.mp h with ⟨-, h2⟩
  rcases List.append_eq_nil.mp h2 with ⟨h3, -⟩
  exact absurd h3 (by decide)

theorem dedup_written_shape (c resp : List Char) (m : Nat) (cout : List Char)
    (h : deduplicate_learnings c true resp = .written m cout) :
    ∃ p g, searchSub alMarker c = some (p, g) ∧
      m = (processPairs [] (pairList (splitLE g))).2 ∧
      cout = pyReplace c (alMarker ++ g)
        (alMarker ++ pyStrip (joinAll (e0keepOf (splitLE g) ++
          flattenPairs (processPairs [] (pairList (splitLE g))).1))) := by
  have hne : c ≠ [] := by
    intro hc
    rw [hc] at h
    have h0 : deduplicate_learnings [] true resp = .readError := rfl
    rw [h0] at h
    cases h
  rcases hs : searchSub alMarker c with _ | ⟨p, g⟩
  · exfalso
    have h0 : deduplicate_learnings c true resp = .noSection := by
      simp only [deduplicate_learnings, if_neg hne, hs]
    rw [h0] at h
    cases h
  simp only [deduplicate_learnings, if_neg hne, hs] at h
  rw [if_neg (fun hc => absurd hc.2.1 (by decide))] at h
  simp only [DedupResult.written.injEq] at h
  exact ⟨p, g, rfl, h.1.symm, h.2.symm⟩

/-- **C7, amended.**  If a second auto-confirmed run of `deduplicate`
reports zero removals, its output is byte-identical to its input (the
first run's result): the first run leaves a stripped section body, and a
zero-removal run reconstructs the section body verbatim and re-strips a
fixed point.  (The second run does *not* always report zero — see the
counterexample, where stripping at the section boundary merges entries
and re-exposes a duplicate.) -/
theorem c7_amended (c0 c1 c2 resp resp2 : List Char) (n : Nat)
    (hrun1 : deduplicate_learnings c0 true resp = .written n c1)
    (hrun2 : deduplicate_learnings c1 true resp2 = .written 0 c2) :
    c2 = c1 := by
  obtain ⟨p0, g2, hsearch0, -, hc1⟩ := dedup_written_shape c0 resp n c1 hrun1
  rw [pyReplace_tail (by decide : alMarker ≠ []) c0 p0 g2 _ hsearch0] at hc1
  obtain ⟨p1, g1, hsearch1, hcount2, hc2⟩ := dedup_written_shape c1 resp2 0 c2 hrun2
  have hstab : searchSub alMarker c1 =
      some (p0, pyStrip (joinAll (e0keepOf (splitLE g2) ++
        flattenPairs (processPairs [] (pairList (splitLE g2))).1))) := by
    rw [hc1]
    exact searchSub_stable (by decide) c0 p0 g2 _ hsearch0
  rw [hstab] at hsearch1
  simp only [Option.some.injEq, Prod.mk.injEq] at hsearch1
  obtain ⟨-, hg1⟩ := hsearch1
  have hg1strip : pyStrip g1 = g1 := by
    rw [← hg1]
    exact pyStrip_idem _
  have hkept2 : (processPairs [] (pairList (splitLE g1))).1 = pairList (splitLE g1) :=
    processPairs_zero _ _ hcount2.symm
  obtain ⟨hd, tl, hsplit, hflat, hjoin⟩ := splitLE_struct g1
  have hS2 : pyStrip (joinAll (e0keepOf (splitLE g1) ++
      flattenPairs (processPairs [] (pairList (splitLE g1))).1)) = g1 := by
    rw [hkept2, hsplit]
    have hpl : pairList (hd :: tl) = pairsAux tl := rfl
    rw [hpl, hflat]
    by_cases he0 : pyStrip hd = []
    · have he : e0keepOf (hd :: tl) = [] := by simp [e0keepOf, he0]
      rw [he, List.nil_append]
      have hj2 : joinAll (hd :: tl) = hd ++ joinAll tl := rfl
      rw [hj2] at hjoin
      rw [← pyStrip_append_of_strip_nil he0 (joinAll tl), hjoin, hg1strip]
    · have he : e0keepOf (hd :: tl) = [hd] := by simp [e0keepOf, he0]
      rw [he]
      have hcons : [hd] ++ tl = hd :: tl := rfl
      rw [hcons, hjoin, hg1strip]
  rw [hS2] at hc2
  rw [hc2, pyReplace_self]

/-- Input document of the C7 counterexample: a preamble `P`, an entry
whose body is itself a bare entry header, an entry with whitespace body,
and a final entry with whitespace body. -/
def c7docA : List Char :=
  "## AUTOMATED LEARNINGS\nP\n### Learning Entry - 2024-01-01 10:00:00\n### Learning Entry - 2024-01-01 11:11:11\n### Learning Entry - 2024-01-01 10:00:00\n \n### Learning Entry - 2024-01-01 11:11:11\n ".data

/-- Text written by the first run on `c7docA`: zero entries removed, but
the trailing `strip()` cut the final entry header's closing newline. -/
def c7docB : List Char :=
  "## AUTOMATED LEARNINGS\nP\n### Learning Entry - 2024-01-01 10:00:00\n### Learning Entry - 2024-01-01 11:11:11\n### Learning Entry - 2024-01-01 10:00:00\n \n### Learning Entry - 2024-01-01 11:11:11".data

/-- Text written by the second run: the truncated final header merged
into the previous body, whose key now collides with the first entry, so
one "duplicate" is removed. -/
def c7docC : List Char :=
  "## AUTOMATED LEARNINGS\nP\n### Learning Entry - 2024-01-01 10:00:00\n### Learning Entry - 2024-01-01 11:11:11".data

/-- **C7, counterexample.**  Two consecutive auto-confirmed runs: the
first reports zero removals yet rewrites the file, and the second
reports one removal and writes different bytes — refuting both "removes
entries only on the first run" and "the second run's output is
byte-identical". -/
theorem c7_counterexample :
    deduplicate_learnings c7docA true [] = .written 0 c7docB ∧
    deduplicate_learnings c7docB true [] = .written 1 c7docC ∧
    c7docC ≠ c7docB := by
  refine ⟨rfl, rfl, by decide⟩

/-- Witness for `c7_amended` at a concrete document (the first run strips
the section's surrounding whitespace, the second is the identity). -/
theorem c7_amended_witness :
    "## AUTOMATED LEARNINGS\n### Learning Entry - 2024-01-01 10:00:00\nbody".data =
      "## AUTOMATED LEARNINGS\n### Learning Entry - 2024-01-01 10:00:00\nbody".data :=
  c7_amended
    "## AUTOMATED LEARNINGS\n\n### Learning Entry - 2024-01-01 10:00:00\nbody\n".data
    "## AUTOMATED LEARNINGS\n### Learning Entry - 2024-01-01 10:00:00\nbody".data
    "## AUTOMATED LEARNINGS\n### Learning Entry - 2024-01-01 10:00:00\nbody".data
    [] [] 0 rfl rfl

/-! ## Claim C3, amended (replacing the first-pass-only version) -/

theorem joinNl_cons_ne (a : List Char) (l : List (List Char)) (h : l ≠ []) :
    joinNl (a :: l) = a ++ '\n' :: joinNl l := by
  cases l with
  | nil => exact absurd rfl h
  | cons m ms => rfl

/-- An element ending in `'\n'` joins like the element without it followed
by an empty line. -/
theorem joinNl_split_tail_nl : ∀ (pre : List (List Char)) (x : List Char)
    (post : List (List Char)),
    joinNl (pre ++ (x ++ ['\n']) :: post) = joinNl (pre ++ x :: [] :: post) := by
  intro pre x post
  induction pre with
  | nil =>
    cases post with
    | nil => rfl
    | cons p ps =>
      rw [List.nil_append, List.nil_append,
        joinNl_cons_ne (x ++ ['\n']) (p :: ps) (by simp),
        joinNl_cons_ne x ([] :: p :: ps) (by simp),
        joinNl_cons_ne [] (p :: ps) (by simp)]
      simp
  | cons a t ih =>
    rw [List.cons_append, List.cons_append,
      joinNl_cons_ne a (t ++ (x ++ ['\n']) :: post) (by simp),
      joinNl_cons_ne a (t ++ x :: [] :: post) (by simp), ih]

/-- An element starting with `'\n'` joins like an empty line followed by
the element without it. -/
theorem joinNl_split_head_nl : ∀ (pre : List (List Char)) (x : List Char)
    (post : List (List Char)),
    joinNl (pre ++ ('\n' :: x) :: post) = joinNl (pre ++ [] :: x :: post) := by
  intro pre x post
  induction pre with
  | nil =>
    cases post with
    | nil => rfl
    | cons p ps =>
      rw [List.nil_append, List.nil_append,
        joinNl_cons_ne ('\n' :: x) (p :: ps) (by simp),
        joinNl_cons_ne [] (x :: p :: ps) (by simp),
        joinNl_cons_ne x (p :: ps) (by simp)]
      simp
  | cons a t ih =>
    rw [List.cons_append, List.cons_append,
      joinNl_cons_ne a (t ++ ('\n' :: x) :: post) (by simp),
      joinNl_cons_ne a (t ++ [] :: x :: post) (by simp), ih]

theorem dropWhile_append_all (p : Char → Bool) : ∀ (u v : List Char),
    (∀ c ∈ u, p c = true) → (u ++ v).dropWhile p = v.dropWhile p := by
  intro u
  induction u with
  | nil => intro v _; rfl
  | cons c cs ih =>
    intro v h
    rw [List.cons_append, List.dropWhile_cons_of_pos (h c (List.mem_cons_self c cs))]
    exact ih v (fun x hx => h x (List.mem_cons_of_mem c hx))

theorem dropWhile_append_ne_nil (p : Char → Bool) : ∀ (u v : List Char),
    u.dropWhile p ≠ [] → (u ++ v).dropWhile p = u.dropWhile p ++ v := by
  intro u
  induction u with
  | nil => intro v h; exact absurd rfl h
  | cons c cs ih =>
    intro v h
    by_cases hc : p c = true
    · rw [List.dropWhile_cons_of_pos hc] at h
      rw [List.cons_append, List.dropWhile_cons_of_pos hc,
        List.dropWhile_cons_of_pos hc]
      exact ih v h
    · rw [List.cons_append, List.dropWhile_cons_of_neg (by simpa using hc),
        List.dropWhile_cons_of_neg (by simpa using hc), List.cons_append]

/-- `rstrip` ignores an all-whitespace tail. -/
theorem pyRStrip_append_all_space (x y : List Char) (h : ∀ c ∈ y, isPySpace c = true) :
    pyRStrip (x ++ y) = pyRStrip x := by
  show ((x ++ y).reverse.dropWhile isPySpace).reverse = (x.reverse.dropWhile isPySpace).reverse
  rw [List.reverse_append,
    dropWhile_append_all isPySpace y.reverse x.reverse
      (fun c hc => h c (List.mem_reverse.mp hc))]

/-- `rstrip` keeps everything before a tail holding a non-whitespace
character. -/
theorem pyRStrip_append_keep (x y : List Char) (h : ∃ c ∈ y, isPySpace c = false) :
    pyRStrip (x ++ y) = x ++ pyRStrip y := by
  show ((x ++ y).reverse.dropWhile isPySpace).reverse =
    x ++ (y.reverse.dropWhile isPySpace).reverse
  rw [List.reverse_append]
  have hne : y.reverse.dropWhile isPySpace ≠ [] := by
    intro hcontra
    obtain ⟨c, hc, hcf⟩ := h
    have hall := List.dropWhile_eq_nil_iff.mp hcontra c (List.mem_reverse.mpr hc)
    rw [hall] at hcf
    cases hcf
  rw [dropWhile_append_ne_nil isPySpace y.reverse x.reverse hne, List.reverse_append,
    List.reverse_reverse]

theorem cpLine_no_newline {ts desc : List Char} (hts : '\n' ∉ ts) (hdesc : '\n' ∉ desc) :
    '\n' ∉ "- **".data ++ ts ++ "**: ".data ++ desc := by
  intro hmem
  rcases List.mem_append.mp hmem with hmem | hmem
  · rcases List.mem_append.mp hmem with hmem | hmem
    · rcases List.mem_append.mp hmem with hmem | hmem
      · exact absurd hmem (by decide)
      · exact hts hmem
    · exact absurd hmem (by decide)
  · exact hdesc hmem

/-- The stripped checkpoint entry is the checkpoint line with its
trailing whitespace removed. -/
theorem pyRStrip_mkCpEntry (ts desc : List Char) :
    pyRStrip (mkCpEntry ts desc) = pyRStrip ("- **".data ++ ts ++ "**: ".data ++ desc) := by
  have h1 : mkCpEntry ts desc = ("- **".data ++ ts ++ "**: ".data ++ desc) ++ ['\n'] := by
    simp [mkCpEntry]
  rw [h1]
  exact pyRStrip_append_all_space _ _ (by decide)

/-- The stripped checkpoint entry still carries the `- **` bullet: the
non-whitespace `**: ` core is never stripped. -/
theorem pyRStrip_cpLine_isCp (ts desc : List Char) :
    "- **".data.isPrefixOf (pyRStrip ("- **".data ++ ts ++ "**: ".data ++ desc)) = true := by
  have h1 : "- **".data ++ ts ++ "**: ".data ++ desc =
      "- **".data ++ (ts ++ ("**: ".data ++ desc)) := by
    simp [List.append_assoc]
  rw [h1, pyRStrip_append_keep _ _
    ⟨'*', List.mem_append_right ts (List.mem_append_left desc (by decide)), by decide⟩]
  exact List.isPrefixOf_iff_prefix.mpr ⟨_, rfl⟩

theorem cpCreateScan_shape (newls : List (List Char)) : ∀ (ls r : List (List Char)),
    cpCreateScan newls ls = some r →
    ∃ pre post, ls = pre ++ post ∧ r = pre ++ (newls ++ post) := by
  intro ls
  induction ls with
  | nil => intro r h; cases h
  | cons l t ih =>
    intro r h
    unfold cpCreateScan at h
    by_cases hc : ("## ".data.isPrefixOf l && ! containsSub l etMarker) = true
    · rw [if_pos hc] at h
      simp only [Option.some.injEq] at h
      exact ⟨[], l :: t, rfl, by rw [← h]; rfl⟩
    · rw [if_neg hc] at h
      rcases ht : cpCreateScan newls t with _ | r''
      · rw [ht] at h; cases h
      · rw [ht] at h
        simp only [Option.map_some', Option.some.injEq] at h
        obtain ⟨pre, post, hd, hr⟩ := ih r'' ht
        exact ⟨l :: pre, post, by rw [hd, List.cons_append],
          by rw [← h, hr, List.cons_append]⟩

theorem cpCreate_shape (newls : List (List Char)) : ∀ (ls r : List (List Char)),
    cpCreate newls ls = some r →
    r = ls ∨ ∃ pre post, ls = pre ++ post ∧ r = pre ++ (newls ++ post) := by
  intro ls
  induction ls with
  | nil =>
    intro r h
    simp only [cpCreate, Option.some.injEq] at h
    exact Or.inl h.symm
  | cons l t ih =>
    intro r h
    unfold cpCreate at h
    by_cases hc : containsSub l etMarker = true
    · rw [if_pos hc] at h
      rcases ht : cpCreateScan newls t with _ | r''
      · rw [ht] at h; cases h
      · rw [ht] at h
        simp only [Option.map_some', Option.some.injEq] at h
        obtain ⟨pre, post, hd, hr⟩ := cpCreateScan_shape newls t r'' ht
        right
        exact ⟨l :: pre, post, by rw [hd, List.cons_append],
          by rw [← h, hr, List.cons_append]⟩
    · rw [if_neg hc] at h
      rcases ht : cpCreate newls t with _ | r''
      · rw [ht] at h; cases h
      · rw [ht] at h
        simp only [Option.map_some', Option.some.injEq] at h
        rcases ih r'' ht with hsame | ⟨pre, post, hd, hr⟩
        · left
          rw [← h, hsame]
        · right
          exact ⟨l :: pre, post, by rw [hd, List.cons_append],
            by rw [← h, hr, List.cons_append]⟩

/-- **C3, amended.**  Every successful `add_checkpoint` run either writes
the document back byte-identical — the silent no-op of the counterexample
(Checkpoint History present with no later top-level marker) or a document
without the EVOLUTION TRACKING marker — or adds exactly one new checkpoint
line with every prior line preserved unchanged and in its original
relative order: either the entry line is inserted at the first-pass
insertion point (followed by the empty line from its trailing newline),
or a new `### Checkpoint History` header and the whitespace-stripped entry
line (still a `- **` checkpoint line) are inserted before the next
top-level section.  The only abnormal outcome is the IndexError of C9. -/
theorem c3_amended (content ts desc out : List Char)
    (hts : '\n' ∉ ts) (hdesc : '\n' ∉ desc)
    (hrun : add_checkpoint content ts desc = .ok out) :
    out = content ∨
    (∃ pre post, splitNl content = pre ++ post ∧
      splitNl out = pre ++ ("- **".data ++ ts ++ "**: ".data ++ desc) :: [] :: post) ∨
    (∃ pre post, splitNl content = pre ++ post ∧
      splitNl out = pre ++ [] :: chMarker ::
        pyRStrip ("- **".data ++ ts ++ "**: ".data ++ desc) :: post ∧
      "- **".data.isPrefixOf
        (pyRStrip ("- **".data ++ ts ++ "**: ".data ++ desc)) = true) := by
  have hne : content ≠ [] := by
    intro hc
    rw [hc] at hrun
    have h0 : add_checkpoint [] ts desc = .readError := rfl
    rw [h0] at hrun
    cases hrun
  rcases hfl : cpFirstLoop (mkCpEntry ts desc) false false false (splitNl content)
    with ⟨o, b⟩
  cases o with
  | some r =>
    obtain ⟨hb, pre, post, hdecomp, hr⟩ :=
      cpFirstLoop_some (mkCpEntry ts desc) (splitNl content) false false false r b
        (fun hc => by cases hc) hfl
    subst hb
    have hout : add_checkpoint content ts desc = .ok (joinNl r) := by
      simp only [add_checkpoint, if_neg hne, hfl, if_true]
    rw [hout] at hrun
    injection hrun with hout2
    right; left
    refine ⟨pre, post, hdecomp, ?_⟩
    rw [← hout2, hr]
    have hentry : mkCpEntry ts desc = ("- **".data ++ ts ++ "**: ".data ++ desc) ++ ['\n'] := by
      simp [mkCpEntry]
    rw [hentry, joinNl_split_tail_nl]
    refine splitNl_joinNl (by simp) ?_
    intro p hp
    rcases List.mem_append.mp hp with hp | hp
    · exact splitNl_no_newline content p (hdecomp ▸ List.mem_append_left post hp)
    · rcases List.mem_cons.mp hp with rfl | hp
      · exact cpLine_no_newline hts hdesc
      · rcases List.mem_cons.mp hp with rfl | hp
        · simp
        · exact splitNl_no_newline content p (hdecomp ▸ List.mem_append_right pre hp)
  | none =>
    cases b with
    | true =>
      have hout : add_checkpoint content ts desc = .ok (joinNl (splitNl content)) := by
        simp only [add_checkpoint, if_neg hne, hfl, if_true]
      rw [hout] at hrun
      injection hrun with hout2
      left
      rw [← hout2, joinNl_splitNl]
    | false =>
      rcases hcr : cpCreate [('\n' :: chMarker), pyRStrip (mkCpEntry ts desc)]
          (splitNl content) with _ | r'
      · exfalso
        have h0 : add_checkpoint content ts desc = .indexError := by
          simp only [add_checkpoint, if_neg hne, hfl, hcr, Bool.false_eq_true, if_false]
        rw [h0] at hrun
        cases hrun
      · have hout : add_checkpoint content ts desc = .ok (joinNl r') := by
          simp only [add_checkpoint, if_neg hne, hfl, hcr, Bool.false_eq_true, if_false]
        rw [hout] at hrun
        injection hrun with hout2
        rcases cpCreate_shape _ (splitNl content) r' hcr with hsame | ⟨pre, post, hdecomp, hr⟩
        · left
          rw [← hout2, hsame, joinNl_splitNl]
        · right; right
          refine ⟨pre, post, hdecomp, ?_, pyRStrip_cpLine_isCp ts desc⟩
          rw [← hout2, hr]
          have hlist : ([('\n' :: chMarker), pyRStrip (mkCpEntry ts desc)] ++ post) =
              ('\n' :: chMarker) :: pyRStrip (mkCpEntry ts desc) :: post := rfl
          rw [hlist, joinNl_split_head_nl, pyRStrip_mkCpEntry]
          refine splitNl_joinNl (by simp) ?_
          intro p hp
          rcases List.mem_append.mp hp with hp | hp
          · exact splitNl_no_newline content p (hdecomp ▸ List.mem_append_left post hp)
          · rcases List.mem_cons.mp hp with rfl | hp
            · simp
            · rcases List.mem_cons.mp hp with rfl | hp
              · decide
              · rcases List.mem_cons.mp hp with rfl | hp
                · intro hmem
                  exact cpLine_no_newline hts hdesc
                    ((pyRStrip_front _).sublist.subset hmem)
                · exact splitNl_no_newline content p
                    (hdecomp ▸ List.mem_append_right pre hp)

/-- Witness for `c3_amended`: a document with no Checkpoint History and a
later section, where the creation branch inserts the subsection header
and one checkpoint line. -/
theorem c3_amended_witness :
    "## EVOLUTION TRACKING\nstuff\n\n### Checkpoint History\n- **2026-01-01T00:00:00Z**: d\n## NEXT\nz".data =
      "## EVOLUTION TRACKING\nstuff\n## NEXT\nz".data ∨
    (∃ pre post, splitNl "## EVOLUTION TRACKING\nstuff\n## NEXT\nz".data = pre ++ post ∧
      splitNl "## EVOLUTION TRACKING\nstuff\n\n### Checkpoint History\n- **2026-01-01T00:00:00Z**: d\n## NEXT\nz".data =
        pre ++ ("- **".data ++ "2026-01-01T00:00:00Z".data ++ "**: ".data ++ "d".data)
          :: [] :: post) ∨
    (∃ pre post, splitNl "## EVOLUTION TRACKING\nstuff\n## NEXT\nz".data = pre ++ post ∧
      splitNl "## EVOLUTION TRACKING\nstuff\n\n### Checkpoint History\n- **2026-01-01T00:00:00Z**: d\n## NEXT\nz".data =
        pre ++ [] :: chMarker ::
          pyRStrip ("- **".data ++ "2026-01-01T00:00:00Z".data ++ "**: ".data ++ "d".data)
            :: post ∧
      "- **".data.isPrefixOf
        (pyRStrip ("- **".data ++ "2026-01-01T00:00:00Z".data ++ "**: ".data ++ "d".data)) =
        true) :=
  c3_amended "## EVOLUTION TRACKING\nstuff\n## NEXT\nz".data
    "2026-01-01T00:00:00Z".data "d".data
    "## EVOLUTION TRACKING\nstuff\n\n### Checkpoint History\n- **2026-01-01T00:00:00Z**: d\n## NEXT\nz".data
    (by decide) (by decide) (by decide)

end AiData
